import Mathlib

/-!
Verification of the treenodes repository: an electrical-network closure-table
builder.  The Python source is shallowly embedded: dictionaries become
association lists (insertion ordered, as CPython dicts are), sets become
lists with membership-guarded insertion, and the two while-loops of the BFS
are given explicit fuel, which is proved sufficient from the loop invariants.
-/

namespace TreeNodes

/-- Association-list lookup, first match wins (keys are unique in every state
the Python code builds, so this matches dict lookup). -/
def afind {κ : Type} {α : Type} [DecidableEq κ] : List (κ × α) → κ → Option α
  | [], _ => none
  | kv :: rest, x => if x = kv.1 then some kv.2 else afind rest x

/-- Keys of an association list, in insertion order (dict iteration order). -/
def keysOf {κ : Type} {α : Type} (m : List (κ × α)) : List κ :=
  m.map (fun kv => kv.1)

/-- Dictionary assignment: overwrite the value when the key is present
(keeping its position, as CPython does), otherwise append a fresh entry. -/
def aset {κ : Type} {α : Type} [DecidableEq κ] (m : List (κ × α)) (k : κ) (v : α) :
    List (κ × α) :=
  if (afind m k).isSome then
    m.map (fun kv => if kv.1 = k then (k, v) else kv)
  else
    m ++ [(k, v)]

/-- In-place update of the value stored under a key (models mutating the
object stored in a dict, e.g. adding to a set held in a dict slot). -/
def aupd {κ : Type} {α : Type} [DecidableEq κ] (m : List (κ × α)) (k : κ)
    (f : α → α) : List (κ × α) :=
  m.map (fun kv => if kv.1 = k then (k, f kv.2) else kv)

/-- Python set insertion: a no-op when the element is already present. -/
def setAdd {α : Type} [DecidableEq α] (s : List α) (x : α) : List α :=
  if x ∈ s then s else s ++ [x]

theorem afind_append_of_isSome {κ α : Type} [DecidableEq κ]
    {m : List (κ × α)} {k : κ} (m2 : List (κ × α)) (h : (afind m k).isSome) :
    afind (m ++ m2) k = afind m k := by
  induction m with
  | nil => simp [afind] at h
  | cons kv rest ih =>
    by_cases hk : k = kv.1
    · simp [afind, hk]
    · simp only [afind, hk, if_false] at h ⊢
      exact ih h

theorem afind_append_of_none {κ α : Type} [DecidableEq κ]
    {m : List (κ × α)} {k : κ} (m2 : List (κ × α)) (h : afind m k = none) :
    afind (m ++ m2) k = afind m2 k := by
  induction m with
  | nil => simp
  | cons kv rest ih =>
    by_cases hk : k = kv.1
    · simp [afind, hk] at h
    · simp only [afind, hk, if_false] at h ⊢
      exact ih h

theorem afind_eq_none_iff {κ α : Type} [DecidableEq κ]
    {m : List (κ × α)} {k : κ} : afind m k = none ↔ k ∉ keysOf m := by
  induction m with
  | nil => simp [afind, keysOf]
  | cons kv rest ih =>
    by_cases hk : k = kv.1
    · simp [afind, hk, keysOf]
    · simp [afind, hk, keysOf] at ih ⊢
      exact ih

theorem afind_isSome_iff {κ α : Type} [DecidableEq κ]
    {m : List (κ × α)} {k : κ} : (afind m k).isSome ↔ k ∈ keysOf m := by
  rcases h : afind m k with _ | v
  · simp [afind_eq_none_iff.mp h]
  · simp only [Option.isSome_some, true_iff]
    by_contra hmem
    rw [afind_eq_none_iff.mpr hmem] at h
    cases h

theorem afind_split {κ α : Type} [DecidableEq κ]
    {m : List (κ × α)} {k : κ} {v : α} (h : afind m k = some v) :
    ∃ l r, m = l ++ (k, v) :: r ∧ k ∉ keysOf l := by
  induction m with
  | nil => simp [afind] at h
  | cons kv rest ih =>
    obtain ⟨k1, v1⟩ := kv
    by_cases hk : k = k1
    · refine ⟨[], rest, ?_, by simp [keysOf]⟩
      subst hk
      simp only [afind, if_pos, Option.some.injEq] at h
      subst h
      rfl
    · simp only [afind, hk, if_false] at h
      obtain ⟨l, r, hm, hnot⟩ := ih h
      refine ⟨(k1, v1) :: l, r, by simp [hm], ?_⟩
      simp only [keysOf, List.map_cons, List.mem_cons]
      rintro (hkk | hkl)
      · exact hk hkk
      · exact hnot hkl

theorem keysOf_append {κ α : Type} (m n : List (κ × α)) :
    keysOf (m ++ n) = keysOf m ++ keysOf n := by
  simp [keysOf]

theorem aset_fresh {κ α : Type} [DecidableEq κ]
    {m : List (κ × α)} {k : κ} (v : α) (h : afind m k = none) :
    aset m k v = m ++ [(k, v)] := by
  simp [aset, h]

theorem setAdd_fresh {α : Type} [DecidableEq α] {s : List α} {x : α}
    (h : x ∉ s) : setAdd s x = s ++ [x] := by
  simp [setAdd, h]

theorem mem_setAdd {α : Type} [DecidableEq α] {s : List α} {x y : α} :
    y ∈ setAdd s x ↔ y ∈ s ∨ y = x := by
  by_cases h : x ∈ s
  · simp only [setAdd, h, if_true]
    constructor
    · exact fun hy => Or.inl hy
    · rintro (hy | rfl) <;> assumption
  · simp [setAdd, h]

theorem keysOf_aupd {κ α : Type} [DecidableEq κ] (m : List (κ × α)) (k : κ)
    (f : α → α) : keysOf (aupd m k f) = keysOf m := by
  induction m with
  | nil => rfl
  | cons kv rest ih =>
    by_cases hk : kv.1 = k
    · simp [aupd, keysOf, hk] at ih ⊢
      exact ih
    · simp [aupd, keysOf, hk] at ih ⊢
      exact ih

theorem aupd_congr_id {κ α : Type} [DecidableEq κ] {m : List (κ × α)} {k : κ}
    {f : α → α} (h : ∀ kv ∈ m, kv.1 = k → f kv.2 = kv.2) : aupd m k f = m := by
  induction m with
  | nil => rfl
  | cons kv rest ih =>
    simp only [aupd, List.map_cons]
    rw [show (rest.map fun kv => if kv.1 = k then (k, f kv.2) else kv) = rest from
      ih (fun kv hm hk => h kv (List.mem_cons_of_mem _ hm) hk)]
    by_cases hk : kv.1 = k
    · simp only [hk, if_true]
      rw [h kv (List.mem_cons_self ..) hk, ← hk]
    · simp [hk]

/-- Attribute values stored in a node attribute bag (Python passes strings,
ints and floats as keyword arguments; floats are modelled as exact rationals,
which is faithful for the decimal literals the pipeline handles). -/
inductive AttrVal : Type
  | str (s : String)
  | int (n : Int)
  | rat (q : Rat)
deriving DecidableEq

/-- An attribute bag: the kwargs dict of add_node, keyed by attribute name. -/
abbrev Attrs := List (String × AttrVal)

/-- Data model of models.py: a network node (class Nodo). -/
structure Nodo where
  id_nodo : Int
  nombre : String
  tipo : String
  voltaje_kv : Rat
  x : Rat
  y : Rat
deriving DecidableEq

/-- Data model of models.py: a network segment (class Segmento). -/
structure Segmento where
  id_segmento : Int
  id_circuito : String
  nodo_inicio : Int
  nodo_fin : Int
  longitud_m : Rat
  tipo_conductor : Int
  capacidad_amp : Int
deriving DecidableEq

/-- Numeric value of a digit list (valid only when all are digits). -/
def digitsToNat (l : List Char) : Nat :=
  l.foldl (fun acc c => acc * 10 + (c.toNat - 48)) 0

/-- Models the Python int() builtin on the decimal literals relevant here:
an optional sign followed by a nonempty run of digits succeeds, anything
else (including embedded dots or letters) raises ValueError, i.e. none. -/
def pyIntOf (s : String) : Option Int :=
  let core : List Char → Option Int := fun l =>
    if l ≠ [] ∧ l.all Char.isDigit then some (Int.ofNat (digitsToNat l)) else none
  match s.toList with
  | '-' :: rest => (core rest).map (fun n => -n)
  | '+' :: rest => core rest
  | l => core l

/-- Characters before the first dot. -/
def preDot : List Char → List Char
  | [] => []
  | '.' :: _ => []
  | c :: rest => c :: preDot rest

/-- Characters after the first dot, or none when there is no dot. -/
def postDot : List Char → Option (List Char)
  | [] => none
  | '.' :: rest => some rest
  | _ :: rest => postDot rest

/-- Models the Python float() builtin on plain decimal literals: optional
sign, then digits with at most one dot and at least one digit in total
(accepting forms such as 12, 12., .5, 3.25); other strings raise, i.e. none.
Exponent, infinity and nan forms never arise in this pipeline and are not
modelled.  The value is returned as an exact rational. -/
def pyFloatOf (s : String) : Option Rat :=
  let signed : List Char → Int × List Char := fun l =>
    match l with
    | '-' :: rest => (-1, rest)
    | '+' :: rest => (1, rest)
    | rest => (1, rest)
  let (sgn, body) := signed s.toList
  let ip := preDot body
  match postDot body with
  | none =>
      if body ≠ [] ∧ body.all Char.isDigit then
        some ((sgn * Int.ofNat (digitsToNat body) : Int) : Rat)
      else none
  | some fp =>
      if (ip ≠ [] ∨ fp ≠ []) ∧ ip.all Char.isDigit ∧ fp.all Char.isDigit then
        some (mkRat (sgn * Int.ofNat (digitsToNat ip * 10 ^ fp.length + digitsToNat fp))
          (10 ^ fp.length))
      else none

/-- Nodo.from_csv_row: builds a Nodo from a CSV row dict; a missing key or a
failing int()/float() conversion raises, modelled as none.  Matches the
source, which constructs the record iff every field converts. -/
def Nodo.from_csv_row (row : List (String × String)) : Option Nodo :=
  match (afind row "id_nodo").bind pyIntOf, afind row "nombre", afind row "tipo",
      (afind row "voltaje_kv").bind pyFloatOf, (afind row "x").bind pyFloatOf,
      (afind row "y").bind pyFloatOf with
  | some a, some b, some c, some d, some e2, some f => some ⟨a, b, c, d, e2, f⟩
  | _, _, _, _, _, _ => none

/-- Segmento.from_csv_row: builds a Segmento from a CSV row dict; a missing
key or failing numeric conversion raises, modelled as none.  Note the source
applies int()/float() only, with no sign or range checks. -/
def Segmento.from_csv_row (row : List (String × String)) : Option Segmento :=
  match (afind row "id_segmento").bind pyIntOf, afind row "id_circuito",
      (afind row "nodo_inicio").bind pyIntOf, (afind row "nodo_fin").bind pyIntOf,
      (afind row "longitud_m").bind pyFloatOf, (afind row "tipo_conductor").bind pyIntOf,
      (afind row "capacidad_amp").bind pyIntOf with
  | some a, some b, some c, some d, some e2, some f, some g2 =>
      some ⟨a, b, c, d, e2, f, g2⟩
  | _, _, _, _, _, _, _ => none

/-- A closure table entry (ancestor, descendant, depth), the tuples produced
by bfs_traversal.  The same shape is used for the BFS queue items
(ancestor, node, depth), exactly as in the source. -/
abbrev Entry := Int × Int × Nat

/-- The parent_map dict of bfs_traversal: node to optional parent
(the start node maps to None). -/
abbrev ParentMap := List (Int × Option Int)

/-- The inner while-loop of bfs_traversal: starting at temp, repeatedly step
to the parent and emit (parent, nb, depth+1), stopping when the map has no
entry or maps to None.  The Python loop has no fuel; callers pass fuel equal
to the map size, proved sufficient from the acyclicity invariant. -/
def chainWalk (pm : ParentMap) (nb : Int) : Nat → Int → Nat → List Entry
  | 0, _, _ => []
  | fuel + 1, temp, dep =>
    match afind pm temp with
    | some (some p) => (p, nb, dep + 1) :: chainWalk pm nb fuel p (dep + 1)
    | _ => []

/-- The strict ancestor chain of a node under the parent map: parent,
grandparent, and so on, read off by the same walk as chainWalk. -/
def chainTo (pm : ParentMap) : Nat → Int → List Int
  | 0, _ => []
  | fuel + 1, v =>
    match afind pm v with
    | some (some p) => p :: chainTo pm fuel p
    | _ => []

/-- Tree depth of a node: length of its strict ancestor chain. -/
def depthP (pm : ParentMap) (v : Int) : Nat :=
  (chainTo pm pm.length v).length

/-- Pairs a list of ancestors with a fixed descendant and increasing depths. -/
def mapDepth (nb : Int) : Nat → List Int → List Entry
  | _, [] => []
  | d, a :: rest => (a, nb, d) :: mapDepth nb (d + 1) rest

/-- The closure entries emitted when a node is discovered: one entry per
strict ancestor, at depths 1, 2, ..., up the tree. -/
def blockOf (pm : ParentMap) (n : Int) : List Entry :=
  mapDepth n 1 (chainTo pm pm.length n)

/-- Mutable state of bfs_traversal: the accumulating entry list, the visited
set, the FIFO queue and the parent map. -/
structure BfsSt where
  entries : List Entry
  visited : List Int
  queue : List Entry
  parent : ParentMap

/-- The for-loop over the neighbors of the current node in bfs_traversal:
each unvisited neighbor is marked visited, given a parent, enqueued at
depth 1, and its direct entry plus the parent-chain walk are appended. -/
def procNbrs (cur : Int) : List Int → BfsSt → BfsSt
  | [], st => st
  | n :: ns, st =>
    if n ∈ st.visited then procNbrs cur ns st
    else
      let pm2 := aset st.parent n (some cur)
      procNbrs cur ns
        { entries := st.entries ++ [(cur, n, 1)] ++ chainWalk pm2 n pm2.length cur 1
          visited := setAdd st.visited n
          queue := st.queue ++ [(cur, n, 1)]
          parent := pm2 }

/-- The outer while-loop of bfs_traversal: pop the queue head, emit the
reflexive entry when ancestor equals current, then process the neighbors.
Fuel is proved sufficient for the fuel passed by bfsRun. -/
def bfsLoop (nbr : Int → List Int) : Nat → BfsSt → BfsSt
  | 0, st => st
  | fuel + 1, st =>
    match st.queue with
    | [] => st
    | (anc, cur, _) :: rest =>
      let e1 := if anc = cur then st.entries ++ [(cur, cur, 0)] else st.entries
      bfsLoop nbr fuel (procNbrs cur (nbr cur) ⟨e1, st.visited, rest, st.parent⟩)

/-- Neighbor lookup in an adjacency association list, defaulting to empty:
this is exactly ManualNetworkAdapter.get_neighbors
(self.edges.get(node_id, set())). -/
def nbrOf (adj : List (Int × List Int)) (u : Int) : List Int :=
  (afind adj u).getD []

/-- Total number of stored neighbor slots; used to bound the BFS fuel. -/
def totalAdjLen (adj : List (Int × List Int)) : Nat :=
  (adj.map (fun kv => kv.2.length)).sum

/-- Fuel that always suffices for the BFS main loop (proved below). -/
def bfsFuel (adj : List (Int × List Int)) : Nat :=
  totalAdjLen adj + 1

/-- Initial BFS state: queue holds (start, start, 0), start is visited, and
parent_map maps start to None. -/
def initSt (start : Int) : BfsSt :=
  { entries := [], visited := setAdd [] start,
    queue := [(start, start, 0)], parent := aset [] start none }

/-- Full final state of bfs_traversal on an adjacency list. -/
def bfsRun (adj : List (Int × List Int)) (start : Int) : BfsSt :=
  bfsLoop (nbrOf adj) (bfsFuel adj) (initSt start)

/-- bfs_traversal as in the source: the closure entry list it returns.
Both adapters run literally this algorithm over their get_neighbors. -/
def bfs_traversal (adj : List (Int × List Int)) (start : Int) : List Entry :=
  (bfsRun adj start).entries

/-- The symmetric edge insertion both adapters perform: ensure adjacency
slots exist for both endpoints, then add each endpoint to the other's
neighbor set (the four statements of ManualNetworkAdapter.add_edge). -/
def edgeInsert (m : List (Int × List Int)) (a b : Int) : List (Int × List Int) :=
  let e1 := if (afind m a).isSome then m else m ++ [(a, [])]
  let e2 := if (afind e1 b).isSome then e1 else e1 ++ [(b, [])]
  let e3 := aupd e2 a (fun s => setAdd s b)
  aupd e3 b (fun s => setAdd s a)

/-- ManualNetworkAdapter state: the nodes dict (id to attribute bag) and the
edges dict (id to neighbor set). -/
structure ManualNetworkAdapter where
  nodes : List (Int × Attrs)
  edges : List (Int × List Int)
deriving DecidableEq

namespace ManualNetworkAdapter

/-- A fresh adapter: empty nodes and edges dicts. -/
def empty : ManualNetworkAdapter := ⟨[], []⟩

/-- add_node: store the attribute bag under the id (overwriting), and ensure
an edges slot exists for the id. -/
def add_node (g : ManualNetworkAdapter) (id : Int) (attributes : Attrs) :
    ManualNetworkAdapter :=
  { nodes := aset g.nodes id attributes
    edges := if (afind g.edges id).isSome then g.edges else g.edges ++ [(id, [])] }

/-- add_edge: ensure edges slots exist for both endpoints, then insert each
endpoint into the other's neighbor set.  The kwargs are accepted and
discarded, exactly as in the source. -/
def add_edge (g : ManualNetworkAdapter) (node_from node_to : Int)
    (_attributes : Attrs := []) : ManualNetworkAdapter :=
  { nodes := g.nodes, edges := edgeInsert g.edges node_from node_to }

/-- get_nodes: the keys of the nodes dict, in insertion order. -/
def get_nodes (g : ManualNetworkAdapter) : List Int :=
  keysOf g.nodes

/-- get_neighbors: the stored neighbor set, or empty when absent. -/
def get_neighbors (g : ManualNetworkAdapter) (id : Int) : List Int :=
  (afind g.edges id).getD []

/-- get_node_attributes: the stored bag, or an empty dict when absent. -/
def get_node_attributes (g : ManualNetworkAdapter) (id : Int) : Attrs :=
  (afind g.nodes id).getD []

/-- bfs_traversal of the manual adapter: the generic BFS over its edges dict
(its get_neighbors is definitionally nbrOf of its edges). -/
def bfs_traversal (g : ManualNetworkAdapter) (start : Int) : List Entry :=
  TreeNodes.bfs_traversal g.edges start

end ManualNetworkAdapter

/-- Modelled from the spec: the NetworkX library backing NetworkXAdapter is
external to the repository, so nx.Graph is modelled after the section 4.1
graph contract: an undirected simple graph whose add_edge registers both
endpoints, whose neighbors lookup is symmetric, and whose node set contains
every endpoint ever mentioned.  Edge attributes are not modelled (no claim
concerns them). -/
structure NxGraph where
  nodesL : List (Int × Attrs)
  adj : List (Int × List Int)
deriving DecidableEq

namespace NxGraph

/-- Modelled from the spec: an empty nx.Graph. -/
def empty : NxGraph := ⟨[], []⟩

/-- Modelled from the spec: add_node registers the id with its attributes
(overwriting on re-add) and ensures an adjacency slot. -/
def add_node (g : NxGraph) (id : Int) (attributes : Attrs) : NxGraph :=
  { nodesL := aset g.nodesL id attributes
    adj := if (afind g.adj id).isSome then g.adj else g.adj ++ [(id, [])] }

/-- Modelled from the spec: add_edge implicitly creates absent endpoints
with empty attributes and inserts one symmetric connection. -/
def add_edge (g : NxGraph) (node_from node_to : Int)
    (_attributes : Attrs := []) : NxGraph :=
  let n1 := if (afind g.nodesL node_from).isSome then g.nodesL
    else g.nodesL ++ [(node_from, [])]
  let n2 := if (afind n1 node_to).isSome then n1 else n1 ++ [(node_to, [])]
  { nodesL := n2, adj := edgeInsert g.adj node_from node_to }

/-- Modelled from the spec: all node ids. -/
def get_nodes (g : NxGraph) : List Int := keysOf g.nodesL

/-- Modelled from the spec: neighbors of a node; empty for an absent id. -/
def get_neighbors (g : NxGraph) (id : Int) : List Int :=
  (afind g.adj id).getD []

/-- Modelled from the spec: attribute bag of a node, empty when absent. -/
def get_node_attributes (g : NxGraph) (id : Int) : Attrs :=
  (afind g.nodesL id).getD []

/-- bfs_traversal of the NetworkX adapter (source lines 74-114): literally
the same loop as the manual adapter, over this graph's neighbor lookup. -/
def bfs_traversal (g : NxGraph) (start : Int) : List Entry :=
  TreeNodes.bfs_traversal g.adj start

end NxGraph

/-- The attribute bag build_network passes to add_node for a Nodo. -/
def nodoAttrs (nd : Nodo) : Attrs :=
  [("nombre", .str nd.nombre), ("tipo", .str nd.tipo),
   ("voltaje_kv", .rat nd.voltaje_kv), ("x", .rat nd.x), ("y", .rat nd.y)]

/-- The kwargs build_network passes to add_edge for a Segmento (the manual
adapter discards them). -/
def segAttrs (sg : Segmento) : Attrs :=
  [("id_segmento", .int sg.id_segmento), ("id_circuito", .str sg.id_circuito),
   ("longitud_m", .rat sg.longitud_m), ("tipo_conductor", .int sg.tipo_conductor),
   ("capacidad_amp", .int sg.capacidad_amp)]

namespace NetworkBuilder

/-- NetworkBuilder.build_network over the manual adapter: add every node
with its attributes, then add every segment as an edge. -/
def build_network (g : ManualNetworkAdapter) (nodos : List Nodo)
    (segmentos : List Segmento) : ManualNetworkAdapter :=
  let g1 := nodos.foldl
    (fun acc nd => acc.add_node nd.id_nodo (nodoAttrs nd)) g
  segmentos.foldl
    (fun acc sg => acc.add_edge sg.nodo_inicio sg.nodo_fin (segAttrs sg)) g1

/-- NetworkBuilder.find_subestacion_node: scan get_nodes in order and return
the first node whose tipo attribute equals the marker string; the ValueError
raised when none exists is modelled as none. -/
def find_subestacion_node (g : ManualNetworkAdapter) : Option Int :=
  g.get_nodes.find? (fun id =>
    afind (g.get_node_attributes id) "tipo" = some (.str "Subestacion"))

end NetworkBuilder

/-- The loop in main() that marks every ancestor and descendant of the
emitted entries as globally visited. -/
def markVisited (vg : List Int) (es : List Entry) : List Int :=
  es.foldl (fun acc e => setAdd (setAdd acc e.1) e.2.1) vg

/-- The orchestration loop of main() (source lines 57-66): iterate the node
ids; for each one not yet globally visited, run bfs_traversal from it,
append its entries, and mark every node they mention as visited. -/
def mainClosureLoop (adj : List (Int × List Int)) :
    List Int → List Int → List Entry → List Entry
  | [], _, acc => acc
  | v :: rest, vg, acc =>
    if v ∈ vg then mainClosureLoop adj rest vg acc
    else
      let ce := bfs_traversal adj v
      mainClosureLoop adj rest (markVisited vg ce) (acc ++ ce)

/-- The aggregate closure entry list main() produces for a built network. -/
def build_all_closures (g : ManualNetworkAdapter) : List Entry :=
  mainClosureLoop g.edges g.get_nodes [] []

/-- A walk of a given length in the graph described by a neighbor function:
HasWalk nbr n a b means b is reachable from a in exactly n neighbor steps. -/
inductive HasWalk (nbr : Int → List Int) : Nat → Int → Int → Prop
  | nil (v : Int) : HasWalk nbr 0 v v
  | cons {n : Nat} {a b c : Int} : b ∈ nbr a → HasWalk nbr n b c →
      HasWalk nbr (n + 1) a c

theorem HasWalk.snoc {nbr : Int → List Int} {n : Nat} {a b c : Int}
    (h : HasWalk nbr n a b) (hc : c ∈ nbr b) : HasWalk nbr (n + 1) a c := by
  induction h with
  | nil v => exact HasWalk.cons hc (HasWalk.nil c)
  | cons hb _ ih => exact HasWalk.cons hb (ih hc)

theorem HasWalk.comp {nbr : Int → List Int} {m n : Nat} {a b c : Int}
    (h1 : HasWalk nbr m a b) (h2 : HasWalk nbr n b c) :
    HasWalk nbr (m + n) a c := by
  induction h1 with
  | nil v => simpa using h2
  | cons hb _ ih =>
    have := HasWalk.cons hb (ih h2)
    simpa [Nat.add_right_comm] using this

/-- k is the unweighted shortest-path distance from a to d: some walk of
length k connects them and no shorter walk does. -/
def IsShortest (nbr : Int → List Int) (a d : Int) (k : Nat) : Prop :=
  HasWalk nbr k a d ∧ ∀ L, HasWalk nbr L a d → k ≤ L

theorem IsShortest.unique {nbr : Int → List Int} {a d : Int} {k1 k2 : Nat}
    (h1 : IsShortest nbr a d k1) (h2 : IsShortest nbr a d k2) : k1 = k2 :=
  Nat.le_antisymm (h1.2 _ h2.1) (h2.2 _ h1.1)

/-- Well-formed parent map: the parent recorded for any entry was already a
key of the strictly earlier part of the map.  CPython dict insertion order
gives the BFS parent map exactly this shape, which is what makes the
source's unguarded parent-chain walk terminate. -/
def PmWf (pm : ParentMap) : Prop :=
  ∀ l n c r, pm = l ++ (n, some c) :: r → c ∈ keysOf l

/-- Invariant of the BFS parent map. -/
structure PmInv (nbr : Int → List Int) (start : Int) (pm : ParentMap) : Prop where
  nodup : (keysOf pm).Nodup
  wf : PmWf pm
  headStart : ∃ t, pm = (start, none) :: t
  parentEdge : ∀ n c, afind pm n = some (some c) → n ∈ nbr c
  onlyRootNone : ∀ n, afind pm n = some none → n = start

theorem PmInv.find_start {nbr : Int → List Int} {start : Int} {pm : ParentMap}
    (inv : PmInv nbr start pm) : afind pm start = some none := by
  obtain ⟨t, ht⟩ := inv.headStart
  simp [ht, afind]

theorem PmInv.start_mem {nbr : Int → List Int} {start : Int} {pm : ParentMap}
    (inv : PmInv nbr start pm) : start ∈ keysOf pm := by
  obtain ⟨t, ht⟩ := inv.headStart
  simp [ht, keysOf]

theorem PmInv.parent_mem {nbr : Int → List Int} {start : Int} {pm : ParentMap}
    (inv : PmInv nbr start pm) {n c : Int} (h : afind pm n = some (some c)) :
    c ∈ keysOf pm := by
  obtain ⟨l, r, hm, _⟩ := afind_split h
  have := inv.wf l n c r hm
  rw [hm, keysOf_append]
  exact List.mem_append_left _ this

/-- Position of the first occurrence of a key. -/
def idxk : List Int → Int → Nat
  | [], _ => 0
  | k :: r, v => if v = k then 0 else idxk r v + 1

theorem idxk_append_of_not_mem {l r : List Int} {v : Int} (h : v ∉ l) :
    idxk (l ++ r) v = l.length + idxk r v := by
  induction l with
  | nil => simp
  | cons k t ih =>
    simp only [List.mem_cons, not_or] at h
    show idxk (k :: (t ++ r)) v = (k :: t).length + idxk r v
    simp only [idxk, h.1, if_false]
    rw [ih h.2]
    simp only [List.length_cons]
    omega

theorem idxk_append_of_mem {l : List Int} {v : Int} (r : List Int) (h : v ∈ l) :
    idxk (l ++ r) v = idxk l v := by
  induction l with
  | nil => simp at h
  | cons k t ih =>
    by_cases hv : v = k
    · simp [idxk, hv]
    · simp only [List.mem_cons, hv, false_or] at h
      simp [idxk, hv, ih h]

theorem idxk_lt_length {l : List Int} {v : Int} (h : v ∈ l) :
    idxk l v < l.length := by
  induction l with
  | nil => simp at h
  | cons k t ih =>
    by_cases hv : v = k
    · simp [idxk, hv]
    · simp only [List.mem_cons, hv, false_or] at h
      simp only [idxk, hv, if_false, List.length_cons]
      exact Nat.succ_lt_succ (ih h)

/-- Rank of a node: position of its key in the parent map. -/
def rank (pm : ParentMap) (v : Int) : Nat := idxk (keysOf pm) v

theorem keysOf_length {κ α : Type} (m : List (κ × α)) :
    (keysOf m).length = m.length := by
  simp [keysOf]

theorem rank_lt_length {pm : ParentMap} {v : Int} (h : v ∈ keysOf pm) :
    rank pm v < pm.length := by
  have := idxk_lt_length h
  rwa [keysOf_length] at this

theorem rank_parent_lt {nbr : Int → List Int} {start : Int} {pm : ParentMap}
    (inv : PmInv nbr start pm) {n c : Int} (h : afind pm n = some (some c)) :
    rank pm c < rank pm n := by
  obtain ⟨l, r, hm, hnot⟩ := afind_split h
  have hc : c ∈ keysOf l := inv.wf l n c r hm
  have hkeys : keysOf pm = keysOf l ++ n :: keysOf r := by
    rw [hm, keysOf_append]
    rfl
  have hrn : rank pm n = (keysOf l).length := by
    rw [rank, hkeys, idxk_append_of_not_mem hnot]
    simp [idxk]
  have hrc : rank pm c < (keysOf l).length := by
    rw [rank, hkeys, idxk_append_of_mem _ hc]
    exact idxk_lt_length hc
  omega

theorem chainTo_fuel_congr_aux {nbr : Int → List Int} {start : Int}
    {pm : ParentMap} (inv : PmInv nbr start pm) :
    ∀ N v, rank pm v < N → ∀ f1 f2, rank pm v < f1 → rank pm v < f2 →
      chainTo pm f1 v = chainTo pm f2 v := by
  intro N
  induction N with
  | zero => omega
  | succ N ih =>
    intro v hN f1 f2 h1 h2
    obtain ⟨g1, rfl⟩ : ∃ g1, f1 = g1 + 1 := ⟨f1 - 1, by omega⟩
    obtain ⟨g2, rfl⟩ : ∃ g2, f2 = g2 + 1 := ⟨f2 - 1, by omega⟩
    show chainTo pm (g1 + 1) v = chainTo pm (g2 + 1) v
    rcases hfind : afind pm v with _ | ov
    · simp [chainTo, hfind]
    · rcases ov with _ | c
      · simp [chainTo, hfind]
      · have hlt := rank_parent_lt inv hfind
        simp only [chainTo, hfind]
        rw [ih c (by omega) g1 g2 (by omega) (by omega)]

theorem chainTo_fuel_congr {nbr : Int → List Int} {start : Int}
    {pm : ParentMap} (inv : PmInv nbr start pm) {v : Int} {f1 f2 : Nat}
    (h1 : rank pm v < f1) (h2 : rank pm v < f2) :
    chainTo pm f1 v = chainTo pm f2 v :=
  chainTo_fuel_congr_aux inv (rank pm v + 1) v (by omega) f1 f2 h1 h2

theorem chainTo_cons {nbr : Int → List Int} {start : Int} {pm : ParentMap}
    (inv : PmInv nbr start pm) {n c : Int} (h : afind pm n = some (some c)) :
    chainTo pm pm.length n = c :: chainTo pm pm.length c := by
  have hn : n ∈ keysOf pm := afind_isSome_iff.mp (by simp [h])
  have hL : rank pm n < pm.length := rank_lt_length hn
  have hc := rank_parent_lt inv h
  obtain ⟨K, hK⟩ : ∃ K, pm.length = K + 1 := ⟨pm.length - 1, by omega⟩
  rw [hK] at hL
  rw [hK]
  have hstep : chainTo pm (K + 1) n = c :: chainTo pm K c := by
    conv_lhs => rw [chainTo]
    rw [h]
  rw [hstep, chainTo_fuel_congr inv (show rank pm c < K by omega)
    (show rank pm c < K + 1 by omega)]

theorem chainTo_start {nbr : Int → List Int} {start : Int} {pm : ParentMap}
    (inv : PmInv nbr start pm) {f : Nat} : chainTo pm f start = [] := by
  cases f with
  | zero => rfl
  | succ g => simp [chainTo, inv.find_start]

theorem depthP_start {nbr : Int → List Int} {start : Int} {pm : ParentMap}
    (inv : PmInv nbr start pm) : depthP pm start = 0 := by
  simp [depthP, chainTo_start inv]

theorem depthP_child {nbr : Int → List Int} {start : Int} {pm : ParentMap}
    (inv : PmInv nbr start pm) {n c : Int} (h : afind pm n = some (some c)) :
    depthP pm n = depthP pm c + 1 := by
  simp [depthP, chainTo_cons inv h]

theorem chainTo_extend {nbr : Int → List Int} {start : Int} {pm : ParentMap}
    (inv : PmInv nbr start pm) (delta : ParentMap) :
    ∀ f v, v ∈ keysOf pm → chainTo (pm ++ delta) f v = chainTo pm f v := by
  intro f
  induction f with
  | zero => intro v _; rfl
  | succ g ih =>
    intro v hv
    have hsome : (afind pm v).isSome := afind_isSome_iff.mpr hv
    have heq : afind (pm ++ delta) v = afind pm v := afind_append_of_isSome _ hsome
    rcases hfind : afind pm v with _ | ov
    · simp [hfind] at hsome
    · rcases ov with _ | c
      · simp [chainTo, heq, hfind]
      · have hc : c ∈ keysOf pm := inv.parent_mem hfind
        simp only [chainTo, heq, hfind]
        rw [ih c hc]

theorem depthP_extend {nbr : Int → List Int} {start : Int} {pm : ParentMap}
    (inv : PmInv nbr start pm) (delta : ParentMap) {v : Int}
    (hv : v ∈ keysOf pm) : depthP (pm ++ delta) v = depthP pm v := by
  have h1 : chainTo (pm ++ delta) (pm ++ delta).length v
      = chainTo pm (pm ++ delta).length v := chainTo_extend inv delta _ v hv
  have hrank : rank pm v < pm.length := rank_lt_length hv
  have h2 : chainTo pm (pm ++ delta).length v = chainTo pm pm.length v := by
    refine chainTo_fuel_congr inv ?_ hrank
    simp only [List.length_append]
    omega
  show (chainTo (pm ++ delta) (pm ++ delta).length v).length
    = (chainTo pm pm.length v).length
  rw [h1, h2]

theorem chainTo_mem_keys {nbr : Int → List Int} {start : Int} {pm : ParentMap}
    (inv : PmInv nbr start pm) :
    ∀ f v a, a ∈ chainTo pm f v → a ∈ keysOf pm := by
  intro f
  induction f with
  | zero => intro v a h; cases h
  | succ g ih =>
    intro v a h
    rcases hfind : afind pm v with _ | ov
    · simp [chainTo, hfind] at h
    · rcases ov with _ | c
      · simp [chainTo, hfind] at h
      · simp only [chainTo, hfind, List.mem_cons] at h
        rcases h with rfl | h
        · exact inv.parent_mem hfind
        · exact ih c a h

theorem chainTo_depth_lt_aux {nbr : Int → List Int} {start : Int}
    {pm : ParentMap} (inv : PmInv nbr start pm) :
    ∀ N v, rank pm v < N → ∀ a, a ∈ chainTo pm pm.length v →
      depthP pm a < depthP pm v := by
  intro N
  induction N with
  | zero => omega
  | succ N ih =>
    intro v hN a ha
    rcases hfind : afind pm v with _ | ov
    · rw [show chainTo pm pm.length v = [] by
        cases hL : pm.length with
        | zero => rfl
        | succ g => simp [chainTo, hfind]] at ha
      cases ha
    · rcases ov with _ | c
      · rw [show chainTo pm pm.length v = [] by
          cases hL : pm.length with
          | zero => rfl
          | succ g => simp [chainTo, hfind]] at ha
        cases ha
      · rw [chainTo_cons inv hfind] at ha
        have hd := depthP_child inv hfind
        rcases List.mem_cons.mp ha with rfl | ha
        · omega
        · have hr := rank_parent_lt inv hfind
          have := ih c (by omega) a ha
          omega

theorem chainTo_depth_lt {nbr : Int → List Int} {start : Int} {pm : ParentMap}
    (inv : PmInv nbr start pm) {v a : Int} (ha : a ∈ chainTo pm pm.length v) :
    depthP pm a < depthP pm v :=
  chainTo_depth_lt_aux inv (rank pm v + 1) v (by omega) a ha

theorem chainTo_nodup_aux {nbr : Int → List Int} {start : Int} {pm : ParentMap}
    (inv : PmInv nbr start pm) :
    ∀ N v, rank pm v < N → (chainTo pm pm.length v).Nodup := by
  intro N
  induction N with
  | zero => omega
  | succ N ih =>
    intro v hN
    rcases hfind : afind pm v with _ | ov
    · rw [show chainTo pm pm.length v = [] by
        cases hL : pm.length with
        | zero => rfl
        | succ g => simp [chainTo, hfind]]
      exact List.nodup_nil
    · rcases ov with _ | c
      · rw [show chainTo pm pm.length v = [] by
          cases hL : pm.length with
          | zero => rfl
          | succ g => simp [chainTo, hfind]]
        exact List.nodup_nil
      · rw [chainTo_cons inv hfind]
        have hr := rank_parent_lt inv hfind
        refine List.nodup_cons.mpr ⟨?_, ih c (by omega)⟩
        intro hc
        exact absurd (chainTo_depth_lt inv hc) (by omega)

theorem chainTo_nodup {nbr : Int → List Int} {start : Int} {pm : ParentMap}
    (inv : PmInv nbr start pm) (v : Int) : (chainTo pm pm.length v).Nodup :=
  chainTo_nodup_aux inv (rank pm v + 1) v (by omega)

theorem chainTo_ends_start_aux {nbr : Int → List Int} {start : Int}
    {pm : ParentMap} (inv : PmInv nbr start pm) :
    ∀ N v, rank pm v < N → v ∈ keysOf pm → v ≠ start →
      ∃ pre, chainTo pm pm.length v = pre ++ [start] := by
  intro N
  induction N with
  | zero => omega
  | succ N ih =>
    intro v hN hv hvs
    have hsome : (afind pm v).isSome := afind_isSome_iff.mpr hv
    rcases hfind : afind pm v with _ | ov
    · simp [hfind] at hsome
    · rcases ov with _ | c
      · exact absurd (inv.onlyRootNone v hfind) hvs
      · rw [chainTo_cons inv hfind]
        by_cases hcs : c = start
        · subst hcs
          exact ⟨[], by simp [chainTo_start inv]⟩
        · have hr := rank_parent_lt inv hfind
          obtain ⟨pre, hpre⟩ := ih c (by omega) (inv.parent_mem hfind) hcs
          exact ⟨c :: pre, by simp [hpre]⟩

theorem chainTo_ends_start {nbr : Int → List Int} {start : Int}
    {pm : ParentMap} (inv : PmInv nbr start pm) {v : Int} (hv : v ∈ keysOf pm)
    (hvs : v ≠ start) : ∃ pre, chainTo pm pm.length v = pre ++ [start] :=
  chainTo_ends_start_aux inv (rank pm v + 1) v (by omega) hv hvs

theorem chainTo_get_walk_aux {nbr : Int → List Int} {start : Int}
    {pm : ParentMap} (inv : PmInv nbr start pm) :
    ∀ N v, rank pm v < N → ∀ i a, (chainTo pm pm.length v).get? i = some a →
      HasWalk nbr (i + 1) a v ∧ depthP pm a + (i + 1) = depthP pm v := by
  intro N
  induction N with
  | zero => omega
  | succ N ih =>
    intro v hN i a ha
    rcases hfind : afind pm v with _ | ov
    · rw [show chainTo pm pm.length v = [] by
        cases hL : pm.length with
        | zero => rfl
        | succ g => simp [chainTo, hfind]] at ha
      simp at ha
    · rcases ov with _ | c
      · rw [show chainTo pm pm.length v = [] by
          cases hL : pm.length with
          | zero => rfl
          | succ g => simp [chainTo, hfind]] at ha
        simp at ha
      · rw [chainTo_cons inv hfind] at ha
        have hedge : v ∈ nbr c := inv.parentEdge v c hfind
        have hd := depthP_child inv hfind
        have hr := rank_parent_lt inv hfind
        cases i with
        | zero =>
          simp only [List.get?] at ha
          cases ha
          exact ⟨HasWalk.cons hedge (HasWalk.nil v), by omega⟩
        | succ j =>
          simp only [List.get?] at ha
          obtain ⟨hw, hdep⟩ := ih c (by omega) j a ha
          exact ⟨hw.snoc hedge, by omega⟩

theorem chainTo_get_walk {nbr : Int → List Int} {start : Int} {pm : ParentMap}
    (inv : PmInv nbr start pm) {v : Int} {i : Nat} {a : Int}
    (ha : (chainTo pm pm.length v).get? i = some a) :
    HasWalk nbr (i + 1) a v ∧ depthP pm a + (i + 1) = depthP pm v :=
  chainTo_get_walk_aux inv (rank pm v + 1) v (by omega) i a ha

theorem walk_from_start_aux {nbr : Int → List Int} {start : Int}
    {pm : ParentMap} (inv : PmInv nbr start pm) :
    ∀ N v, rank pm v < N → v ∈ keysOf pm →
      HasWalk nbr (depthP pm v) start v := by
  intro N
  induction N with
  | zero => omega
  | succ N ih =>
    intro v hN hv
    have hsome : (afind pm v).isSome := afind_isSome_iff.mpr hv
    rcases hfind : afind pm v with _ | ov
    · simp [hfind] at hsome
    · rcases ov with _ | c
      · have := inv.onlyRootNone v hfind
        subst this
        rw [depthP_start inv]
        exact HasWalk.nil v
      · have hd := depthP_child inv hfind
        have hr := rank_parent_lt inv hfind
        have hw := ih c (by omega) (inv.parent_mem hfind)
        rw [hd]
        exact hw.snoc (inv.parentEdge v c hfind)

theorem walk_from_start {nbr : Int → List Int} {start : Int} {pm : ParentMap}
    (inv : PmInv nbr start pm) {v : Int} (hv : v ∈ keysOf pm) :
    HasWalk nbr (depthP pm v) start v :=
  walk_from_start_aux inv (rank pm v + 1) v (by omega) hv

theorem chainWalk_eq_mapDepth (pm : ParentMap) (nb : Int) :
    ∀ fuel v dep, chainWalk pm nb fuel v dep
      = mapDepth nb (dep + 1) (chainTo pm fuel v) := by
  intro fuel
  induction fuel with
  | zero => intro v dep; rfl
  | succ g ih =>
    intro v dep
    rcases hfind : afind pm v with _ | ov
    · simp [chainWalk, chainTo, hfind, mapDepth]
    · rcases ov with _ | p
      · simp [chainWalk, chainTo, hfind, mapDepth]
      · simp [chainWalk, chainTo, hfind, mapDepth, ih]

theorem append_singleton_split {α : Type} {xs l r : List α} {x y : α}
    (h : xs ++ [x] = l ++ y :: r) :
    (l = xs ∧ y = x ∧ r = []) ∨ ∃ r2, r = r2 ++ [x] ∧ xs = l ++ y :: r2 := by
  rcases List.eq_nil_or_concat r with rfl | ⟨r2, z, rfl⟩
  · left
    have hlen : xs.length = l.length := by
      have := congrArg List.length h
      simp only [List.length_append, List.length_cons, List.length_nil,
        List.length_singleton] at this
      omega
    obtain ⟨h1, h2⟩ := List.append_inj h hlen
    simp only [List.cons.injEq] at h2
    exact ⟨h1.symm, h2.1.symm, rfl⟩
  · right
    have h2 : xs ++ [x] = (l ++ y :: r2) ++ [z] := by
      rw [h]
      simp [List.concat_eq_append]
    have hlen : xs.length = (l ++ y :: r2).length := by
      have := congrArg List.length h2
      simp only [List.length_append, List.length_cons, List.length_singleton] at this
      simp only [List.length_append, List.length_cons]
      omega
    obtain ⟨ha, hb⟩ := List.append_inj h2 hlen
    simp only [List.cons.injEq, and_true] at hb
    refine ⟨r2, ?_, ha⟩
    simp [List.concat_eq_append, hb]

theorem afind_append_cases {κ α : Type} [DecidableEq κ]
    (m m2 : List (κ × α)) (k : κ) :
    ((afind m k).isSome ∧ afind (m ++ m2) k = afind m k)
      ∨ (afind m k = none ∧ afind (m ++ m2) k = afind m2 k) := by
  rcases h : afind m k with _ | v
  · exact Or.inr ⟨rfl, afind_append_of_none m2 h⟩
  · exact Or.inl ⟨by simp, by rw [afind_append_of_isSome m2 (by simp [h]), h]⟩

theorem pminv_append {nbr : Int → List Int} {start : Int} {pm : ParentMap}
    (inv : PmInv nbr start pm) {n c : Int} (hn : n ∉ keysOf pm)
    (hc : c ∈ keysOf pm) (hedge : n ∈ nbr c) :
    PmInv nbr start (pm ++ [(n, some c)]) := by
  have hfindn : afind pm n = none := afind_eq_none_iff.mpr hn
  refine ⟨?_, ?_, ?_, ?_, ?_⟩
  · rw [keysOf_append]
    refine List.Nodup.append inv.nodup (by simp [keysOf]) ?_
    intro a ha hb
    simp only [keysOf, List.map_cons, List.map_nil, List.mem_singleton] at hb
    subst hb
    exact hn ha
  · intro l m d r hsplit
    rcases append_singleton_split hsplit with ⟨rfl, hyx, rfl⟩ | ⟨r2, rfl, hxs⟩
    · simp only [Prod.mk.injEq, Option.some.injEq] at hyx
      rw [hyx.2]
      exact hc
    · exact inv.wf l m d r2 hxs
  · obtain ⟨t, ht⟩ := inv.headStart
    exact ⟨t ++ [(n, some c)], by simp [ht]⟩
  · intro m d hfind
    rcases afind_append_cases pm [(n, some c)] m with ⟨_, hcase⟩ | ⟨hnone, hcase⟩
    · rw [hcase] at hfind
      exact inv.parentEdge m d hfind
    · rw [hcase] at hfind
      simp only [afind] at hfind
      by_cases hm : m = n
      · simp only [hm, if_pos rfl, Option.some.injEq] at hfind
        obtain rfl : c = d := by simpa using hfind
        subst hm
        exact hedge
      · simp [hm] at hfind
  · intro m hfind
    rcases afind_append_cases pm [(n, some c)] m with ⟨_, hcase⟩ | ⟨hnone, hcase⟩
    · rw [hcase] at hfind
      exact inv.onlyRootNone m hfind
    · rw [hcase] at hfind
      simp only [afind] at hfind
      by_cases hm : m = n
      · simp [hm] at hfind
      · simp [hm] at hfind

theorem blockOf_extend {nbr : Int → List Int} {start : Int} {pm : ParentMap}
    (inv : PmInv nbr start pm) (delta : ParentMap) {v : Int}
    (hv : v ∈ keysOf pm) : blockOf (pm ++ delta) v = blockOf pm v := by
  have h1 : chainTo (pm ++ delta) (pm ++ delta).length v
      = chainTo pm (pm ++ delta).length v := chainTo_extend inv delta _ v hv
  have h2 : chainTo pm (pm ++ delta).length v = chainTo pm pm.length v := by
    refine chainTo_fuel_congr inv ?_ (rank_lt_length hv)
    have := rank_lt_length hv
    simp only [List.length_append]
    omega
  rw [blockOf, blockOf, h1, h2]

/-- Characterization of the neighbor-processing loop: it discovers the list
of not-yet-visited neighbors (first occurrences, in order), appending each
one to the parent map with parent cur, to the visited set, to the queue at
depth 1, and appending its full ancestor block to the entry list. -/
theorem procNbrs_chars {nbr : Int → List Int} {start : Int} (cur : Int) :
    ∀ (ns : List Int) (st : BfsSt),
      PmInv nbr start st.parent →
      st.visited = keysOf st.parent →
      cur ∈ keysOf st.parent →
      (∀ n ∈ ns, n ∈ nbr cur) →
      PmInv nbr start (procNbrs cur ns st).parent ∧
      ∃ new : List Int,
        (procNbrs cur ns st).parent
          = st.parent ++ new.map (fun n => (n, some cur)) ∧
        (procNbrs cur ns st).visited = st.visited ++ new ∧
        (procNbrs cur ns st).queue = st.queue ++ new.map (fun n => (cur, n, 1)) ∧
        (procNbrs cur ns st).entries = st.entries
          ++ (new.map (fun n => blockOf (procNbrs cur ns st).parent n)).flatten ∧
        new.Nodup ∧
        (∀ n ∈ new, n ∈ ns ∧ n ∉ st.visited) ∧
        (∀ n ∈ ns, n ∈ st.visited ∨ n ∈ new) := by
  intro ns
  induction ns with
  | nil =>
    intro st inv hvis hcur _
    exact ⟨inv, [], by simp [procNbrs]⟩
  | cons n ns ih =>
    intro st inv hvis hcur hsub
    by_cases hmem : n ∈ st.visited
    · have hstep : procNbrs cur (n :: ns) st = procNbrs cur ns st := by
        simp [procNbrs, hmem]
      obtain ⟨inv2, new, hp, hv, hq, he, hnd, hprops, hcov⟩ :=
        ih st inv hvis hcur (fun m hm => hsub m (List.mem_cons_of_mem _ hm))
      rw [hstep]
      refine ⟨inv2, new, hp, hv, hq, he, hnd, ?_, ?_⟩
      · exact fun m hm => ⟨List.mem_cons_of_mem _ (hprops m hm).1, (hprops m hm).2⟩
      · intro m hm
        rcases List.mem_cons.mp hm with rfl | hm2
        · exact Or.inl hmem
        · exact hcov m hm2
    · have hnkeys : n ∉ keysOf st.parent := by
        rw [← hvis]
        exact hmem
      have hfresh : afind st.parent n = none := afind_eq_none_iff.mpr hnkeys
      have hpm2 : aset st.parent n (some cur) = st.parent ++ [(n, some cur)] :=
        aset_fresh _ hfresh
      have hedge : n ∈ nbr cur := hsub n (List.mem_cons_self ..)
      have inv2 : PmInv nbr start (st.parent ++ [(n, some cur)]) :=
        pminv_append inv hnkeys hcur hedge
      have hfind2 : afind (st.parent ++ [(n, some cur)]) n = some (some cur) := by
        rw [afind_append_of_none _ hfresh]
        simp [afind]
      set pm2 := st.parent ++ [(n, some cur)] with hpm2def
      have hblock : (cur, n, 1) :: chainWalk pm2 n pm2.length cur 1
          = blockOf pm2 n := by
        rw [blockOf, chainTo_cons inv2 hfind2, chainWalk_eq_mapDepth]
        rfl
      have hstep : procNbrs cur (n :: ns) st = procNbrs cur ns
          { entries := st.entries ++ [(cur, n, 1)]
              ++ chainWalk pm2 n pm2.length cur 1
            visited := st.visited ++ [n]
            queue := st.queue ++ [(cur, n, 1)]
            parent := pm2 } := by
        simp only [procNbrs, hmem, if_false]
        rw [setAdd_fresh hmem, hpm2]
      set st2 : BfsSt :=
        { entries := st.entries ++ [(cur, n, 1)]
            ++ chainWalk pm2 n pm2.length cur 1
          visited := st.visited ++ [n]
          queue := st.queue ++ [(cur, n, 1)]
          parent := pm2 } with hst2
      have hvis2 : st2.visited = keysOf st2.parent := by
        simp only [hst2, hpm2def, keysOf_append, hvis]
        rfl
      have hcur2 : cur ∈ keysOf st2.parent := by
        simp only [hst2, hpm2def, keysOf_append]
        exact List.mem_append_left _ hcur
      obtain ⟨inv3, new2, hp, hv, hq, he, hnd, hprops, hcov⟩ :=
        ih st2 inv2 hvis2 hcur2 (fun m hm => hsub m (List.mem_cons_of_mem _ hm))
      rw [hstep]
      refine ⟨inv3, n :: new2, ?_, ?_, ?_, ?_, ?_, ?_, ?_⟩
      · rw [hp]
        simp [hst2, hpm2def]
      · rw [hv]
        simp [hst2]
      · rw [hq]
        simp [hst2]
      · rw [he]
        have hdelta : (procNbrs cur ns st2).parent = pm2
            ++ new2.map (fun m => (m, some cur)) := by
          rw [hp]
        have hbext : blockOf (procNbrs cur ns st2).parent n = blockOf pm2 n := by
          rw [hdelta]
          refine blockOf_extend inv2 _ ?_
          simp [hpm2def, keysOf_append, keysOf]
        simp only [hst2, List.map_cons, List.flatten_cons, hbext, ← hblock]
        simp
      · refine List.nodup_cons.mpr ⟨?_, hnd⟩
        intro hn2
        have := (hprops n hn2).2
        simp [hst2] at this
      · intro m hm
        rcases List.mem_cons.mp hm with rfl | hm2
        · exact ⟨List.mem_cons_self .., hmem⟩
        · obtain ⟨hm3, hm4⟩ := hprops m hm2
          refine ⟨List.mem_cons_of_mem _ hm3, ?_⟩
          intro hcon
          apply hm4
          simp only [hst2]
          exact List.mem_append_left _ hcon
      · intro m hm
        rcases List.mem_cons.mp hm with rfl | hm2
        · exact Or.inr (List.mem_cons_self ..)
        · rcases hcov m hm2 with hflag | hflag
          · simp only [hst2, List.mem_append, List.mem_singleton] at hflag
            rcases hflag with hold | rfl
            · exact Or.inl hold
            · exact Or.inr (List.mem_cons_self ..)
          · exact Or.inr (List.mem_cons_of_mem _ hflag)

/-- The node components of the queue items. -/
def qnodes (q : List Entry) : List Int := q.map (fun it => it.2.1)

theorem qnodes_append (a b : List Entry) : qnodes (a ++ b) = qnodes a ++ qnodes b := by
  simp [qnodes]

theorem qnodes_map_pair (cur : Int) (l : List Int) :
    qnodes (l.map fun n => (cur, n, 1)) = l := by
  induction l with
  | nil => rfl
  | cons a t ih => simp [qnodes] at ih ⊢; exact ih

theorem keysOf_map_pair (cur : Int) (l : List Int) :
    keysOf (l.map fun n => ((n : Int), some cur)) = l := by
  induction l with
  | nil => rfl
  | cons a t ih => simp [keysOf] at ih ⊢; exact ih

theorem afind_map_some {new : List Int} {cur n : Int} (h : n ∈ new) :
    afind (new.map fun m => ((m : Int), some cur)) n = some (some cur) := by
  induction new with
  | nil => cases h
  | cons k t ih =>
    by_cases hk : n = k
    · simp [afind, hk]
    · simp only [List.mem_cons, hk, false_or] at h
      simp [afind, hk, ih h]

theorem pm_no_self {nbr : Int → List Int} {start : Int} {pm : ParentMap}
    (inv : PmInv nbr start pm) {n : Int}
    (h : afind pm n = some (some n)) : False := by
  have := rank_parent_lt inv h
  omega

/-- Invariant of the BFS main loop, holding at every loop-head state. -/
structure LoopInv (nbr : Int → List Int) (start : Int) (st : BfsSt) : Prop where
  pmInv : PmInv nbr start st.parent
  visEq : st.visited = keysOf st.parent
  qItems : ∀ it ∈ st.queue,
    (it = (start, start, 0) ∧ st.parent = [(start, none)] ∧ st.visited = [start]
      ∧ st.entries = [] ∧ st.queue = [(start, start, 0)])
    ∨ (it.2.2 = 1 ∧ afind st.parent it.2.1 = some (some it.1))
  qNodup : (qnodes st.queue).Nodup
  qSorted : st.queue.Pairwise
    (fun x y => depthP st.parent x.2.1 ≤ depthP st.parent y.2.1)
  qBand : ∀ h2 ∈ st.queue.head?, ∀ it ∈ st.queue,
      depthP st.parent it.2.1 ≤ depthP st.parent h2.2.1 + 1
  doneDepth : ∀ v ∈ st.visited, v ∉ qnodes st.queue →
      ∀ h2 ∈ st.queue.head?, depthP st.parent v ≤ depthP st.parent h2.2.1
  doneClosed : ∀ v ∈ st.visited, v ∉ qnodes st.queue → ∀ n ∈ nbr v, n ∈ st.visited
  doneLocal : ∀ v ∈ st.visited, v ∉ qnodes st.queue → ∀ n ∈ nbr v,
      depthP st.parent n ≤ depthP st.parent v + 1
  entShape : (st.entries = [] ∧ st.visited = [start]
        ∧ st.queue = [(start, start, 0)])
      ∨ st.entries = (start, start, 0)
          :: ((st.visited.drop 1).map (blockOf st.parent)).flatten

theorem loopInv_qnode_visited {nbr : Int → List Int} {start : Int} {st : BfsSt}
    (inv : LoopInv nbr start st) {it : Entry} (h : it ∈ st.queue) :
    it.2.1 ∈ st.visited := by
  rcases inv.qItems it h with ⟨heq, _, hvis, _, _⟩ | ⟨_, hfind⟩
  · rw [hvis, heq]
    simp
  · rw [inv.visEq]
    exact afind_isSome_iff.mp (by simp [hfind])

/-- One BFS step from a state whose queue has been popped: processing the
neighbors of cur preserves the loop invariant and grows the visited set by a
list of fresh neighbors of cur. -/
theorem bfs_step_core {nbr : Int → List Int} {start : Int} {P : ParentMap}
    {V : List Int} {rest : List Entry} {e1 : List Entry} {cur : Int}
    (hpm : PmInv nbr start P)
    (hvis : V = keysOf P)
    (hcur : cur ∈ keysOf P)
    (hrest : ∀ it ∈ rest, it.2.2 = 1 ∧ afind P it.2.1 = some (some it.1))
    (hrnodup : (qnodes rest).Nodup)
    (hcurq : cur ∉ qnodes rest)
    (hsort : rest.Pairwise (fun x y => depthP P x.2.1 ≤ depthP P y.2.1))
    (hband : ∀ it ∈ rest, depthP P cur ≤ depthP P it.2.1
      ∧ depthP P it.2.1 ≤ depthP P cur + 1)
    (hdoneDepth : ∀ v ∈ V, v ∉ qnodes rest → v ≠ cur → depthP P v ≤ depthP P cur)
    (hdoneClosed : ∀ v ∈ V, v ∉ qnodes rest → v ≠ cur → ∀ n ∈ nbr v, n ∈ V)
    (hdoneLocal : ∀ v ∈ V, v ∉ qnodes rest → v ≠ cur → ∀ n ∈ nbr v,
      depthP P n ≤ depthP P v + 1)
    (hE1 : e1 = (start, start, 0) :: ((V.drop 1).map (blockOf P)).flatten) :
    ∃ new : List Int,
      LoopInv nbr start (procNbrs cur (nbr cur) ⟨e1, V, rest, P⟩) ∧
      (procNbrs cur (nbr cur) ⟨e1, V, rest, P⟩).visited = V ++ new ∧
      (procNbrs cur (nbr cur) ⟨e1, V, rest, P⟩).queue.length
        = rest.length + new.length ∧
      new.Nodup ∧ (∀ n ∈ new, n ∈ nbr cur ∧ n ∉ V) := by
  obtain ⟨inv3, new, hp, hv, hq, he, hnd, hprops, hcov⟩ :=
    procNbrs_chars cur (nbr cur) ⟨e1, V, rest, P⟩ hpm hvis hcur (fun _ h => h)
  set out := procNbrs cur (nbr cur) ⟨e1, V, rest, P⟩ with hout
  have hnewnbr : ∀ n ∈ new, n ∈ nbr cur ∧ n ∉ V := hprops
  have htrans : ∀ v ∈ keysOf P, depthP out.parent v = depthP P v := by
    intro v hvq
    rw [hp]
    exact depthP_extend hpm _ hvq
  have hnewfind : ∀ n ∈ new, afind out.parent n = some (some cur) := by
    intro n hn
    rw [hp]
    have hnone : afind P n = none := by
      refine afind_eq_none_iff.mpr ?_
      rw [← hvis]
      exact (hprops n hn).2
    rw [afind_append_of_none _ hnone]
    exact afind_map_some hn
  have hnewdepth : ∀ n ∈ new, depthP out.parent n = depthP P cur + 1 := by
    intro n hn
    rw [depthP_child inv3 (hnewfind n hn), htrans cur hcur]
  have hkeysout : keysOf out.parent = keysOf P ++ new := by
    rw [hp, keysOf_append, keysOf_map_pair]
  have hvisout : out.visited = V ++ new := hv
  have hqout : out.queue = rest ++ new.map (fun n => (cur, n, 1)) := hq
  have hqnodesout : qnodes out.queue = qnodes rest ++ new := by
    rw [hqout, qnodes_append, qnodes_map_pair]
  have hrestkeys : ∀ it ∈ rest, it.2.1 ∈ keysOf P := by
    intro it hit
    exact afind_isSome_iff.mp (by simp [(hrest it hit).2])
  have hrestdepth : ∀ it ∈ rest, depthP out.parent it.2.1 = depthP P it.2.1 := by
    intro it hit
    exact htrans _ (hrestkeys it hit)
  refine ⟨new, ?_, hvisout, ?_, hnd, hnewnbr⟩
  · refine ⟨inv3, ?_, ?_, ?_, ?_, ?_, ?_, ?_, ?_, ?_⟩
    · rw [hvisout, hkeysout, hvis]
    · -- qItems
      intro it hit
      rw [hqout] at hit
      rcases List.mem_append.mp hit with hit | hit
      · obtain ⟨hd1, hfind⟩ := hrest it hit
        refine Or.inr ⟨hd1, ?_⟩
        rw [hp]
        rw [afind_append_of_isSome _ (by simp [hfind]), hfind]
      · obtain ⟨n, hn, rfl⟩ := List.mem_map.mp hit
        exact Or.inr ⟨rfl, hnewfind n hn⟩
    · -- qNodup
      rw [hqnodesout]
      refine List.Nodup.append hrnodup hnd ?_
      intro a ha hb
      obtain ⟨it, hit, rfl⟩ := List.mem_map.mp ha
      exact (hprops _ hb).2 (by rw [hvis]; exact hrestkeys it hit)
    · -- qSorted
      rw [hqout]
      refine List.pairwise_append.mpr ⟨?_, ?_, ?_⟩
      · refine List.Pairwise.imp_of_mem ?_ hsort
        intro x y hx hy hxy
        rw [hrestdepth x hx, hrestdepth y hy]
        exact hxy
      · refine List.pairwise_of_forall_mem_list ?_
        intro x hx y hy
        obtain ⟨a, haa, rfl⟩ := List.mem_map.mp hx
        obtain ⟨b, hbb, rfl⟩ := List.mem_map.mp hy
        rw [hnewdepth a haa, hnewdepth b hbb]
      · intro x hx y hy
        obtain ⟨n, hn, rfl⟩ := List.mem_map.mp hy
        rw [hrestdepth x hx, hnewdepth n hn]
        exact (hband x hx).2
    · -- qBand
      intro h2 hh2 it hit
      rw [hqout] at hh2 hit
      have hh2depth : depthP P cur ≤ depthP out.parent h2.2.1 := by
        rcases List.mem_append.mp (List.mem_of_mem_head? hh2) with hh | hh
        · rw [hrestdepth h2 hh]
          exact (hband h2 hh).1
        · obtain ⟨n, hn, rfl⟩ := List.mem_map.mp hh
          rw [hnewdepth n hn]
          omega
      rcases List.mem_append.mp hit with hh | hh
      · rw [hrestdepth it hh]
        have := (hband it hh).2
        omega
      · obtain ⟨n, hn, rfl⟩ := List.mem_map.mp hh
        rw [hnewdepth n hn]
        omega
    · -- doneDepth
      intro v hvmem hvq h2 hh2
      rw [hvisout] at hvmem
      rw [hqnodesout] at hvq
      simp only [List.mem_append, not_or] at hvq
      have hvold : v ∈ V := by
        rcases List.mem_append.mp hvmem with h | h
        · exact h
        · exact absurd h hvq.2
      have hvdep : depthP out.parent v ≤ depthP P cur := by
        rw [htrans v (by rw [← hvis]; exact hvold)]
        by_cases hvc : v = cur
        · subst hvc
          omega
        · exact hdoneDepth v hvold hvq.1 hvc
      have hh2depth : depthP P cur ≤ depthP out.parent h2.2.1 := by
        rw [hqout] at hh2
        rcases List.mem_append.mp (List.mem_of_mem_head? hh2) with hh | hh
        · rw [hrestdepth h2 hh]
          exact (hband h2 hh).1
        · obtain ⟨n, hn, rfl⟩ := List.mem_map.mp hh
          rw [hnewdepth n hn]
          omega
      omega
    · -- doneClosed
      intro v hvmem hvq n hn
      rw [hvisout] at hvmem ⊢
      rw [hqnodesout] at hvq
      simp only [List.mem_append, not_or] at hvq
      have hvold : v ∈ V := by
        rcases List.mem_append.mp hvmem with h | h
        · exact h
        · exact absurd h hvq.2
      simp only [List.mem_append]
      by_cases hvc : v = cur
      · rcases hcov n (hvc ▸ hn) with h | h
        · exact Or.inl h
        · exact Or.inr h
      · exact Or.inl (hdoneClosed v hvold hvq.1 hvc n hn)
    · -- doneLocal
      intro v hvmem hvq n hn
      rw [hvisout] at hvmem
      rw [hqnodesout] at hvq
      simp only [List.mem_append, not_or] at hvq
      have hvold : v ∈ V := by
        rcases List.mem_append.mp hvmem with h | h
        · exact h
        · exact absurd h hvq.2
      have hvtrans : depthP out.parent v = depthP P v :=
        htrans v (by rw [← hvis]; exact hvold)
      by_cases hvc : v = cur
      · rcases hcov n (hvc ▸ hn) with hold | hnew2
        · -- n was already visited
          by_cases hnq : n ∈ qnodes rest
          · obtain ⟨it, hit, rfl⟩ := List.mem_map.mp hnq
            rw [htrans _ (hrestkeys it hit), hvtrans, hvc]
            exact (hband it hit).2
          · by_cases hnc : n = cur
            · rw [hnc, hvc]
              omega
            · rw [htrans n (by rw [← hvis]; exact hold), hvtrans, hvc]
              have := hdoneDepth n hold hnq hnc
              omega
        · rw [hnewdepth n hnew2, hvtrans, hvc]
      · have hold2 := hdoneClosed v hvold hvq.1 hvc n hn
        rw [htrans n (by rw [← hvis]; exact hold2), hvtrans]
        exact hdoneLocal v hvold hvq.1 hvc n hn
    · -- entShape
      refine Or.inr ?_
      rw [he, hE1, hvisout]
      have hVhead : ∃ t, V = start :: t := by
        obtain ⟨t, ht⟩ := hpm.headStart
        exact ⟨keysOf t, by rw [hvis, ht]; rfl⟩
      obtain ⟨t, ht⟩ := hVhead
      rw [ht]
      simp only [List.cons_append, List.drop_succ_cons, List.drop_zero]
      have hmapeq : t.map (blockOf P) = t.map (blockOf out.parent) := by
        refine List.map_congr_left ?_
        intro d hd
        rw [hp]
        exact (blockOf_extend hpm _ (by
          rw [← hvis, ht]
          exact List.mem_cons_of_mem _ hd)).symm
      rw [hmapeq]
      simp
  · rw [hqout]
    simp
/-- The state passed to the recursive call of bfsLoop after popping an item. -/
def popStep (nbr : Int → List Int) (st : BfsSt) (anc cur : Int)
    (rest : List Entry) : BfsSt :=
  procNbrs cur (nbr cur)
    ⟨if anc = cur then st.entries ++ [(cur, cur, 0)] else st.entries,
      st.visited, rest, st.parent⟩

theorem bfsLoop_cons {nbr : Int → List Int} {fuel : Nat} {st : BfsSt}
    {anc cur : Int} {dep : Nat} {rest : List Entry}
    (hq : st.queue = (anc, cur, dep) :: rest) :
    bfsLoop nbr (fuel + 1) st = bfsLoop nbr fuel (popStep nbr st anc cur rest) := by
  rw [bfsLoop, hq]
  rfl

theorem bfsLoop_nil {nbr : Int → List Int} {fuel : Nat} {st : BfsSt}
    (hq : st.queue = []) : bfsLoop nbr fuel st = st := by
  cases fuel with
  | zero => rfl
  | succ g => rw [bfsLoop, hq]

/-- Popping any queue item and processing its neighbors preserves the loop
invariant; the visited set grows by a duplicate-free list of previously
unvisited neighbors of the popped node. -/
theorem bfs_step {nbr : Int → List Int} {start : Int} {st : BfsSt}
    (inv : LoopInv nbr start st) {anc cur : Int} {dep : Nat} {rest : List Entry}
    (hq : st.queue = (anc, cur, dep) :: rest) :
    ∃ new : List Int,
      LoopInv nbr start (popStep nbr st anc cur rest) ∧
      (popStep nbr st anc cur rest).visited = st.visited ++ new ∧
      (popStep nbr st anc cur rest).queue.length = rest.length + new.length ∧
      new.Nodup ∧ (∀ n ∈ new, n ∈ nbr cur ∧ n ∉ st.visited) := by
  have hmemq : (anc, cur, dep) ∈ st.queue := by
    rw [hq]
    exact List.mem_cons_self ..
  rcases inv.qItems _ hmemq with ⟨heq, hpmi, hvisi, henti, hquei⟩ | ⟨hdep, hfind⟩
  · -- initial state: the popped item is the root item
    have hrest0 : rest = [] := by
      rw [hq] at hquei
      exact (List.cons_eq_cons.mp hquei).2
    simp only [Prod.mk.injEq] at heq
    obtain ⟨h1, h2, h3⟩ := heq
    have h1s : start = anc := h1.symm
    subst h1s
    have h2s : start = cur := h2.symm
    subst h2s
    subst h3
    subst hrest0
    have hps : popStep nbr st start start []
        = procNbrs start (nbr start)
            ⟨[(start, start, 0)], st.visited, [], st.parent⟩ := by
      rw [popStep, if_pos rfl, henti]
      rfl
    rw [hps]
    refine bfs_step_core inv.pmInv inv.visEq inv.pmInv.start_mem ?_ ?_ ?_ ?_ ?_
      ?_ ?_ ?_ ?_
    · intro it hit
      cases hit
    · simp [qnodes]
    · simp [qnodes]
    · exact List.Pairwise.nil
    · intro it hit
      cases hit
    · intro v hv _ hne
      rw [hvisi] at hv
      simp only [List.mem_singleton] at hv
      exact absurd hv hne
    · intro v hv _ hne
      rw [hvisi] at hv
      simp only [List.mem_singleton] at hv
      exact absurd hv hne
    · intro v hv _ hne
      rw [hvisi] at hv
      simp only [List.mem_singleton] at hv
      exact absurd hv hne
    · rw [hvisi]
      rfl
  · -- ordinary item: depth-1 discovery entry with a recorded parent
    have hanc : anc ≠ cur := by
      intro hac
      exact pm_no_self inv.pmInv (hac ▸ hfind)
    have hps : popStep nbr st anc cur rest
        = procNbrs cur (nbr cur) ⟨st.entries, st.visited, rest, st.parent⟩ := by
      rw [popStep, if_neg hanc]
    rw [hps]
    have hcur : cur ∈ keysOf st.parent := afind_isSome_iff.mp (by simp [hfind])
    have hqn : qnodes st.queue = cur :: qnodes rest := by
      rw [hq]
      rfl
    have hheadq : (anc, cur, dep) ∈ st.queue.head? := by
      rw [hq]
      rfl
    have hrest : ∀ it ∈ rest, it.2.2 = 1 ∧ afind st.parent it.2.1
        = some (some it.1) := by
      intro it hit
      rcases inv.qItems it (by rw [hq]; exact List.mem_cons_of_mem _ hit)
        with ⟨_, _, _, _, hq2⟩ | hr
      · rw [hq] at hq2
        have : rest = [] := (List.cons_eq_cons.mp hq2).2
        subst this
        cases hit
      · exact hr
    have hnodup := inv.qNodup
    rw [hqn] at hnodup
    obtain ⟨hcurq, hrnodup⟩ := List.nodup_cons.mp hnodup
    have hsorted := inv.qSorted
    rw [hq] at hsorted
    obtain ⟨hhead, hsort⟩ := List.pairwise_cons.mp hsorted
    have hband : ∀ it ∈ rest, depthP st.parent cur ≤ depthP st.parent it.2.1
        ∧ depthP st.parent it.2.1 ≤ depthP st.parent cur + 1 := by
      intro it hit
      refine ⟨hhead it hit, ?_⟩
      have := inv.qBand (anc, cur, dep) hheadq it
        (by rw [hq]; exact List.mem_cons_of_mem _ hit)
      exact this
    have hnotq : ∀ v, v ∉ qnodes rest → v ≠ cur → v ∉ qnodes st.queue := by
      intro v hv hne
      rw [hqn]
      simp only [List.mem_cons, not_or]
      exact ⟨hne, hv⟩
    have hE1 : st.entries = (start, start, 0)
        :: ((st.visited.drop 1).map (blockOf st.parent)).flatten := by
      rcases inv.entShape with ⟨_, _, hq2⟩ | hshape
      · rw [hq] at hq2
        have := (List.cons_eq_cons.mp hq2).1
        simp only [Prod.mk.injEq] at this
        omega
      · exact hshape
    refine bfs_step_core inv.pmInv inv.visEq hcur hrest hrnodup hcurq hsort
      hband ?_ ?_ ?_ hE1
    · intro v hv hnq hne
      exact inv.doneDepth v hv (hnotq v hnq hne) (anc, cur, dep) hheadq
    · intro v hv hnq hne
      exact inv.doneClosed v hv (hnotq v hnq hne)
    · intro v hv hnq hne
      exact inv.doneLocal v hv (hnotq v hnq hne)

theorem afind_mem {κ α : Type} [DecidableEq κ] {m : List (κ × α)} {k : κ}
    {v : α} (h : afind m k = some v) : (k, v) ∈ m := by
  induction m with
  | nil => cases h
  | cons kv rest ih =>
    obtain ⟨k1, v1⟩ := kv
    by_cases hk : k = k1
    · subst hk
      simp only [afind, if_pos, Option.some.injEq] at h
      subst h
      exact List.mem_cons_self ..
    · simp only [afind, hk, if_false] at h
      exact List.mem_cons_of_mem _ (ih h)

/-- All node ids that occur in a neighbor list of the adjacency structure;
every node the BFS can ever discover is among them. -/
def candidates (adj : List (Int × List Int)) : List Int :=
  ((adj.map (fun kv => kv.2)).flatten).dedup

theorem candidates_nodup (adj : List (Int × List Int)) :
    (candidates adj).Nodup := List.nodup_dedup _

theorem mem_candidates_of_nbr {adj : List (Int × List Int)} {u n : Int}
    (h : n ∈ nbrOf adj u) : n ∈ candidates adj := by
  rw [candidates, List.mem_dedup]
  rw [nbrOf] at h
  rcases hfind : afind adj u with _ | l
  · rw [hfind] at h
    cases h
  · rw [hfind] at h
    simp only [Option.getD_some] at h
    refine List.mem_flatten.mpr ⟨l, ?_, h⟩
    exact List.mem_map.mpr ⟨(u, l), afind_mem hfind, rfl⟩

theorem candidates_length_le (adj : List (Int × List Int)) :
    (candidates adj).length ≤ totalAdjLen adj := by
  have h1 : (candidates adj).length
      ≤ ((adj.map (fun kv => kv.2)).flatten).length :=
    List.Sublist.length_le (List.dedup_sublist _)
  have h2 : ∀ a : List (Int × List Int),
      ((a.map (fun kv => kv.2)).flatten).length = totalAdjLen a := by
    intro a
    induction a with
    | nil => rfl
    | cons kv rest ih =>
      simp only [List.map_cons, List.flatten_cons, List.length_append, ih,
        totalAdjLen, List.map_cons, List.sum_cons]
  rw [h2] at h1
  exact h1

/-- Master lemma for the BFS main loop: from any invariant state, with fuel
at least the queue length plus the number of unvisited candidate nodes, the
loop terminates with an empty queue and the invariant intact. -/
theorem bfsLoop_spec {adj : List (Int × List Int)} {start : Int} :
    ∀ (fuel : Nat) (st : BfsSt), LoopInv (nbrOf adj) start st →
      st.queue.length
          + (((candidates adj).filter (fun c => c ∉ st.visited)).length)
        ≤ fuel →
      LoopInv (nbrOf adj) start (bfsLoop (nbrOf adj) fuel st) ∧
      (bfsLoop (nbrOf adj) fuel st).queue = [] := by
  intro fuel
  induction fuel with
  | zero =>
    intro st inv hfuel
    have hq : st.queue = [] := by
      cases hql : st.queue with
      | nil => rfl
      | cons a t =>
        rw [hql] at hfuel
        simp at hfuel
    rw [bfsLoop_nil hq]
    exact ⟨inv, hq⟩
  | succ fuel ih =>
    intro st inv hfuel
    cases hql : st.queue with
    | nil =>
      rw [bfsLoop_nil hql]
      exact ⟨inv, hql⟩
    | cons it rest =>
      obtain ⟨anc, cur, dep⟩ := it
      rw [bfsLoop_cons hql]
      obtain ⟨new, inv2, hvis2, hqlen2, hnd, hprops⟩ := bfs_step inv hql
      refine ih _ inv2 ?_
      -- fuel accounting
      have hsub : ((candidates adj).filter
            (fun c => c ∉ (popStep (nbrOf adj) st anc cur rest).visited)).length
            + new.length
          ≤ ((candidates adj).filter (fun c => c ∉ st.visited)).length := by
        set f2 := (candidates adj).filter
          (fun c => c ∉ (popStep (nbrOf adj) st anc cur rest).visited) with hf2
        set f1 := (candidates adj).filter (fun c => c ∉ st.visited) with hf1
        have hnodupf2 : f2.Nodup := (candidates_nodup adj).filter _
        have hdisj : ∀ n ∈ f2, n ∉ new := by
          intro n hn hmem
          have h3 := (List.mem_filter.mp hn).2
          rw [decide_eq_true_eq] at h3
          rw [hvis2] at h3
          exact h3 (List.mem_append_right _ hmem)
        have hsubset : ∀ n ∈ f2 ++ new, n ∈ f1 := by
          intro n hn
          rcases List.mem_append.mp hn with hn | hn
          · obtain ⟨hc, hnv⟩ := List.mem_filter.mp hn
            rw [decide_eq_true_eq] at hnv
            refine List.mem_filter.mpr ⟨hc, ?_⟩
            rw [decide_eq_true_eq]
            intro hcon
            rw [hvis2] at hnv
            exact hnv (List.mem_append_left _ hcon)
          · obtain ⟨hnbr, hnv⟩ := hprops n hn
            refine List.mem_filter.mpr ⟨mem_candidates_of_nbr hnbr, ?_⟩
            rw [decide_eq_true_eq]
            exact hnv
        have hnodup12 : (f2 ++ new).Nodup := by
          refine List.Nodup.append hnodupf2 hnd hdisj
        have := List.Subperm.length_le
          ((List.subperm_of_subset hnodup12 hsubset))
        simpa using this
      rw [hql] at hfuel
      simp only [List.length_cons] at hfuel
      omega

/-- The initial BFS state satisfies the loop invariant. -/
theorem initSt_inv (nbr : Int → List Int) (start : Int) :
    LoopInv nbr start (initSt start) := by
  have hpm0 : (initSt start).parent = [(start, none)] := rfl
  have hvi0 : (initSt start).visited = [start] := rfl
  refine ⟨⟨?_, ?_, ?_, ?_, ?_⟩, ?_, ?_, ?_, ?_, ?_, ?_, ?_, ?_, ?_⟩
  · rw [hpm0]
    simp [keysOf]
  · intro l n c r h
    rw [hpm0] at h
    cases l with
    | nil =>
      simp only [List.nil_append] at h
      cases (List.cons_eq_cons.mp h).1
    | cons a t =>
      simp only [List.cons_append] at h
      have h2 := (List.cons_eq_cons.mp h).2
      simp at h2
  · exact ⟨[], rfl⟩
  · intro n c h
    rw [hpm0] at h
    by_cases hn : n = start
    · subst hn
      simp [afind] at h
    · simp [afind, hn] at h
  · intro n h
    rw [hpm0] at h
    by_cases hn : n = start
    · exact hn
    · simp [afind, hn] at h
  · rw [hvi0, hpm0]
    rfl
  · intro it hit
    have hite : it = (start, start, 0) := by
      simpa [initSt] using hit
    exact Or.inl ⟨hite, hpm0, hvi0, rfl, rfl⟩
  · simp [qnodes, initSt]
  · simp [initSt]
  · intro h2 hh2 it hit
    have h2e : h2 = (start, start, 0) := by
      simpa [initSt] using List.mem_of_mem_head? hh2
    have hite : it = (start, start, 0) := by
      simpa [initSt] using hit
    rw [h2e, hite]
    omega
  · intro v hv hnq h2 hh2
    rw [hvi0] at hv
    simp only [List.mem_singleton] at hv
    subst hv
    exact absurd (by simp [initSt, qnodes]) hnq
  · intro v hv hnq
    rw [hvi0] at hv
    simp only [List.mem_singleton] at hv
    subst hv
    exact absurd (by simp [initSt, qnodes]) hnq
  · intro v hv hnq
    rw [hvi0] at hv
    simp only [List.mem_singleton] at hv
    subst hv
    exact absurd (by simp [initSt, qnodes]) hnq
  · left
    exact ⟨rfl, hvi0, rfl⟩

/-- bfsRun ends with the loop invariant and an exhausted queue: the fuel
bound bfsFuel is sufficient. -/
theorem bfsRun_spec (adj : List (Int × List Int)) (start : Int) :
    LoopInv (nbrOf adj) start (bfsRun adj start) ∧
    (bfsRun adj start).queue = [] := by
  refine bfsLoop_spec (bfsFuel adj) (initSt start) (initSt_inv _ start) ?_
  have h1 : ((candidates adj).filter
      (fun c => c ∉ (initSt start).visited)).length ≤ totalAdjLen adj := by
    calc ((candidates adj).filter (fun c => c ∉ (initSt start).visited)).length
        ≤ (candidates adj).length := List.length_filter_le _ _
      _ ≤ totalAdjLen adj := candidates_length_le adj
  have h2 : (initSt start).queue.length = 1 := rfl
  rw [h2, bfsFuel]
  omega

theorem final_closed {nbr : Int → List Int} {start : Int} {st : BfsSt}
    (inv : LoopInv nbr start st) (hq : st.queue = []) :
    ∀ v ∈ st.visited, ∀ n ∈ nbr v, n ∈ st.visited := by
  intro v hv n hn
  exact inv.doneClosed v hv (by rw [hq]; simp [qnodes]) n hn

theorem final_local {nbr : Int → List Int} {start : Int} {st : BfsSt}
    (inv : LoopInv nbr start st) (hq : st.queue = []) :
    ∀ v ∈ st.visited, ∀ n ∈ nbr v,
      depthP st.parent n ≤ depthP st.parent v + 1 := by
  intro v hv n hn
  exact inv.doneLocal v hv (by rw [hq]; simp [qnodes]) n hn

theorem final_start_mem {nbr : Int → List Int} {start : Int} {st : BfsSt}
    (inv : LoopInv nbr start st) : start ∈ st.visited := by
  rw [inv.visEq]
  exact inv.pmInv.start_mem

theorem final_walk_visited {nbr : Int → List Int} {start : Int} {st : BfsSt}
    (inv : LoopInv nbr start st) (hq : st.queue = []) :
    ∀ {n : Nat} {a v : Int}, HasWalk nbr n a v → a ∈ st.visited →
      v ∈ st.visited ∧ depthP st.parent v ≤ depthP st.parent a + n := by
  intro n a v hw
  induction hw with
  | nil w => exact fun ha => ⟨ha, by omega⟩
  | cons hb hw ih =>
    intro ha
    rename_i m a2 b c
    have hbvis : b ∈ st.visited := final_closed inv hq a2 ha b hb
    have hbdep : depthP st.parent b ≤ depthP st.parent a2 + 1 :=
      final_local inv hq a2 ha b hb
    obtain ⟨hcv, hcd⟩ := ih hbvis
    exact ⟨hcv, by omega⟩

theorem final_depth_zero {nbr : Int → List Int} {start : Int} {st : BfsSt}
    (inv : LoopInv nbr start st) : depthP st.parent start = 0 :=
  depthP_start inv.pmInv

theorem final_reachable_iff {nbr : Int → List Int} {start : Int} {st : BfsSt}
    (inv : LoopInv nbr start st) (hq : st.queue = []) (v : Int) :
    v ∈ st.visited ↔ ∃ n, HasWalk nbr n start v := by
  constructor
  · intro hv
    exact ⟨depthP st.parent v, walk_from_start inv.pmInv (inv.visEq ▸ hv)⟩
  · rintro ⟨n, hw⟩
    exact (final_walk_visited inv hq hw (final_start_mem inv)).1

theorem final_shortest {nbr : Int → List Int} {start : Int} {st : BfsSt}
    (inv : LoopInv nbr start st) (hq : st.queue = []) {v : Int}
    (hv : v ∈ st.visited) :
    IsShortest nbr start v (depthP st.parent v) := by
  refine ⟨walk_from_start inv.pmInv (inv.visEq ▸ hv), ?_⟩
  intro L hw
  have := (final_walk_visited inv hq hw (final_start_mem inv)).2
  rw [final_depth_zero inv] at this
  omega

theorem final_entries_shape {nbr : Int → List Int} {start : Int} {st : BfsSt}
    (inv : LoopInv nbr start st) (hq : st.queue = []) :
    st.entries = (start, start, 0)
      :: ((st.visited.drop 1).map (blockOf st.parent)).flatten := by
  rcases inv.entShape with ⟨_, _, hq2⟩ | hshape
  · rw [hq] at hq2
    cases hq2
  · exact hshape

theorem final_visited_head {nbr : Int → List Int} {start : Int} {st : BfsSt}
    (inv : LoopInv nbr start st) :
    ∃ t, st.visited = start :: t ∧ start ∉ t ∧ t.Nodup := by
  obtain ⟨tp, htp⟩ := inv.pmInv.headStart
  have hnd := inv.pmInv.nodup
  rw [htp] at hnd
  have hkeys : keysOf ((start, none) :: tp) = start :: keysOf tp := rfl
  rw [hkeys] at hnd
  obtain ⟨hns, hnd2⟩ := List.nodup_cons.mp hnd
  exact ⟨keysOf tp, by rw [inv.visEq, htp]; rfl, hns, hnd2⟩

theorem mem_mapDepth {nb : Int} {e : Entry} :
    ∀ {l : List Int} {d : Nat}, e ∈ mapDepth nb d l
      ↔ ∃ i a, l.get? i = some a ∧ e = (a, nb, d + i) := by
  intro l
  induction l with
  | nil =>
    intro d
    simp [mapDepth]
  | cons a2 rest ih =>
    intro d
    simp only [mapDepth, List.mem_cons]
    constructor
    · rintro (rfl | hmem)
      · exact ⟨0, a2, rfl, by simp⟩
      · obtain ⟨i, a3, hget, rfl⟩ := ih.mp hmem
        exact ⟨i + 1, a3, hget, by simp [Nat.add_assoc, Nat.add_comm 1 i]⟩
    · rintro ⟨i, a3, hget, rfl⟩
      cases i with
      | zero =>
        simp only [List.get?] at hget
        cases hget
        left
        simp
      | succ j =>
        simp only [List.get?] at hget
        right
        refine ih.mpr ⟨j, a3, hget, ?_⟩
        simp [Nat.add_assoc, Nat.add_comm 1 j]

theorem mapDepth_desc {nb : Int} :
    ∀ {l : List Int} {d : Nat} {e : Entry}, e ∈ mapDepth nb d l → e.2.1 = nb := by
  intro l
  induction l with
  | nil => intro d e h; cases h
  | cons a rest ih =>
    intro d e h
    rcases List.mem_cons.mp h with rfl | h2
    · rfl
    · exact ih h2

theorem mapDepth_pairs {nb : Int} :
    ∀ (l : List Int) (d : Nat),
      (mapDepth nb d l).map (fun e => (e.1, e.2.1)) = l.map (fun a => (a, nb)) := by
  intro l
  induction l with
  | nil => intro d; rfl
  | cons a rest ih =>
    intro d
    simp only [mapDepth, List.map_cons, ih]

theorem mem_blockOf {pm : ParentMap} {v : Int} {e : Entry} :
    e ∈ blockOf pm v ↔ ∃ i a, (chainTo pm pm.length v).get? i = some a
      ∧ e = (a, v, i + 1) := by
  rw [blockOf]
  rw [mem_mapDepth]
  constructor
  · rintro ⟨i, a, hget, rfl⟩
    exact ⟨i, a, hget, by simp [Nat.add_comm]⟩
  · rintro ⟨i, a, hget, rfl⟩
    exact ⟨i, a, hget, by simp [Nat.add_comm]⟩

theorem blockOf_desc {pm : ParentMap} {v : Int} {e : Entry}
    (h : e ∈ blockOf pm v) : e.2.1 = v := mapDepth_desc h

/-- Every entry of a finished traversal is the reflexive root entry or an
ancestor-chain entry of some non-root visited node. -/
theorem final_entry_cases {nbr : Int → List Int} {start : Int} {st : BfsSt}
    (inv : LoopInv nbr start st) (hq : st.queue = []) {e : Entry}
    (he : e ∈ st.entries) :
    e = (start, start, 0)
      ∨ (e.2.1 ∈ st.visited ∧ e.2.1 ≠ start ∧ ∃ i,
          (chainTo st.parent st.parent.length e.2.1).get? i = some e.1
          ∧ e.2.2 = i + 1) := by
  rw [final_entries_shape inv hq] at he
  rcases List.mem_cons.mp he with rfl | hmem
  · exact Or.inl rfl
  · obtain ⟨bl, hbl, hebl⟩ := List.mem_flatten.mp hmem
    obtain ⟨d, hd, rfl⟩ := List.mem_map.mp hbl
    obtain ⟨t, hvt, hst, hnd⟩ := final_visited_head inv
    rw [hvt] at hd
    simp only [List.drop_succ_cons, List.drop_zero] at hd
    have hdvis : d ∈ st.visited := by
      rw [hvt]
      exact List.mem_cons_of_mem _ hd
    have hdne : d ≠ start := fun h => hst (h ▸ hd)
    obtain ⟨i, a, hget, rfl⟩ := mem_blockOf.mp hebl
    exact Or.inr ⟨hdvis, hdne, i, hget, rfl⟩

/-- The entries whose descendant component is d. -/
def entriesFor (es : List Entry) (d : Int) : List Entry :=
  es.filter (fun e => e.2.1 = d)

/-- The (ancestor, descendant) pairs of an entry list. -/
def pairsOf (es : List Entry) : List (Int × Int) :=
  es.map (fun e => (e.1, e.2.1))

theorem entriesFor_blockOf_ne {pm : ParentMap} {dp d : Int} (h : dp ≠ d) :
    entriesFor (blockOf pm dp) d = [] := by
  rw [entriesFor, List.filter_eq_nil_iff]
  intro e he
  have := blockOf_desc he
  simp only [this, decide_eq_true_eq]
  exact h

theorem entriesFor_blockOf_self {pm : ParentMap} {d : Int} :
    entriesFor (blockOf pm d) d = blockOf pm d := by
  rw [entriesFor, List.filter_eq_self]
  intro e he
  simp [blockOf_desc he]

theorem entriesFor_flatten_not_mem {pm : ParentMap} {d : Int} :
    ∀ {t : List Int}, d ∉ t →
      entriesFor ((t.map (blockOf pm)).flatten) d = [] := by
  intro t
  induction t with
  | nil => intro _; rfl
  | cons dp t2 ih =>
    intro hd
    simp only [List.mem_cons, not_or] at hd
    simp only [List.map_cons, List.flatten_cons]
    rw [entriesFor, List.filter_append]
    rw [show (blockOf pm dp).filter (fun e => e.2.1 = d) = [] from
      entriesFor_blockOf_ne (fun h => hd.1 h.symm) ..]
    rw [show ((t2.map (blockOf pm)).flatten).filter (fun e => e.2.1 = d)
      = [] from ih hd.2]
    rfl

theorem entriesFor_flatten_mem {pm : ParentMap} {d : Int} :
    ∀ {t : List Int}, t.Nodup → d ∈ t →
      entriesFor ((t.map (blockOf pm)).flatten) d = blockOf pm d := by
  intro t
  induction t with
  | nil => intro _ h; cases h
  | cons dp t2 ih =>
    intro hnd hd
    obtain ⟨hdp, hnd2⟩ := List.nodup_cons.mp hnd
    simp only [List.map_cons, List.flatten_cons]
    rw [entriesFor, List.filter_append]
    by_cases hdd : dp = d
    · subst hdd
      rw [show (blockOf pm dp).filter (fun e => e.2.1 = dp) = blockOf pm dp from
        entriesFor_blockOf_self ..]
      rw [show ((t2.map (blockOf pm)).flatten).filter (fun e => e.2.1 = dp)
        = [] from entriesFor_flatten_not_mem hdp]
      simp
    · rcases List.mem_cons.mp hd with rfl | hd2
      · exact absurd rfl hdd
      · rw [show (blockOf pm dp).filter (fun e => e.2.1 = d) = [] from
          entriesFor_blockOf_ne hdd ..]
        rw [show ((t2.map (blockOf pm)).flatten).filter (fun e => e.2.1 = d)
          = blockOf pm d from ih hnd2 hd2]
        simp

theorem final_entriesFor_start {nbr : Int → List Int} {start : Int} {st : BfsSt}
    (inv : LoopInv nbr start st) (hq : st.queue = []) :
    entriesFor st.entries start = [(start, start, 0)] := by
  obtain ⟨t, hvt, hst, hnd⟩ := final_visited_head inv
  rw [final_entries_shape inv hq, hvt]
  simp only [List.drop_succ_cons, List.drop_zero]
  rw [entriesFor, List.filter_cons]
  simp only [decide_eq_true_eq, if_true]
  rw [show ((t.map (blockOf st.parent)).flatten).filter
      (fun e => e.2.1 = start) = [] from entriesFor_flatten_not_mem hst]

theorem final_entriesFor_nonroot {nbr : Int → List Int} {start : Int}
    {st : BfsSt} (inv : LoopInv nbr start st) (hq : st.queue = []) {d : Int}
    (hd : d ∈ st.visited) (hne : d ≠ start) :
    entriesFor st.entries d = blockOf st.parent d := by
  obtain ⟨t, hvt, hst, hnd⟩ := final_visited_head inv
  have hdt : d ∈ t := by
    rw [hvt] at hd
    rcases List.mem_cons.mp hd with rfl | h
    · exact absurd rfl hne
    · exact h
  rw [final_entries_shape inv hq, hvt]
  simp only [List.drop_succ_cons, List.drop_zero]
  rw [entriesFor, List.filter_cons]
  simp only [decide_eq_true_eq]
  rw [if_neg (fun h => hne h.symm)]
  exact entriesFor_flatten_mem hnd hdt

theorem nodup_flatten_keyed :
    ∀ (t : List Int) (f : Int → List (Int × Int)), t.Nodup →
      (∀ d p, p ∈ f d → p.2 = d) → (∀ d, (f d).Nodup) →
      ((t.map f).flatten).Nodup := by
  intro t
  induction t with
  | nil => intro f _ _ _; exact List.nodup_nil
  | cons d t2 ih =>
    intro f hnd hkey hfnd
    obtain ⟨hdt, hnd2⟩ := List.nodup_cons.mp hnd
    simp only [List.map_cons, List.flatten_cons]
    refine List.Nodup.append (hfnd d) (ih f hnd2 hkey hfnd) ?_
    intro p hp hp2
    obtain ⟨bl, hbl, hpbl⟩ := List.mem_flatten.mp hp2
    obtain ⟨d2, hd2, rfl⟩ := List.mem_map.mp hbl
    have h1 := hkey d p hp
    have h2 := hkey d2 p hpbl
    rw [h1] at h2
    exact hdt (h2 ▸ hd2)

theorem pairsOf_flatten (l : List (List Entry)) :
    pairsOf l.flatten = (l.map pairsOf).flatten := by
  induction l with
  | nil => rfl
  | cons a t ih =>
    simp only [List.flatten_cons, pairsOf, List.map_append] at ih ⊢
    rw [ih]
    rfl

/-- The (ancestor, descendant) pairs of a finished traversal are pairwise
distinct. -/
theorem final_pairs_nodup {nbr : Int → List Int} {start : Int} {st : BfsSt}
    (inv : LoopInv nbr start st) (hq : st.queue = []) :
    (pairsOf st.entries).Nodup := by
  obtain ⟨t, hvt, hst, hnd⟩ := final_visited_head inv
  rw [final_entries_shape inv hq, hvt]
  simp only [List.drop_succ_cons, List.drop_zero]
  rw [show pairsOf ((start, start, 0)
      :: ((t.map (blockOf st.parent)).flatten))
    = (start, start) :: pairsOf ((t.map (blockOf st.parent)).flatten) from rfl]
  rw [pairsOf_flatten]
  have hmapmap : (t.map (blockOf st.parent)).map pairsOf
      = t.map (fun d => (chainTo st.parent st.parent.length d).map
          (fun a => (a, d))) := by
    rw [List.map_map]
    refine List.map_congr_left ?_
    intro d _
    show pairsOf (blockOf st.parent d) = _
    rw [pairsOf, blockOf, mapDepth_pairs]
  rw [hmapmap]
  refine List.nodup_cons.mpr ⟨?_, ?_⟩
  · intro hmem
    obtain ⟨bl, hbl, hpbl⟩ := List.mem_flatten.mp hmem
    obtain ⟨d, hd, rfl⟩ := List.mem_map.mp hbl
    obtain ⟨a, _, hpa⟩ := List.mem_map.mp hpbl
    have : d = start := by
      have := congrArg Prod.snd hpa
      simpa using this
    exact hst (this ▸ hd)
  · refine nodup_flatten_keyed t _ hnd ?_ ?_
    · intro d p hp
      obtain ⟨a, _, rfl⟩ := List.mem_map.mp hp
      rfl
    · intro d
      refine List.Nodup.map ?_ (chainTo_nodup inv.pmInv d)
      intro a b hab
      simpa using congrArg Prod.fst hab

/-- The adjacency list describes an undirected graph: the neighbor relation
is symmetric. -/
def SymmAdj (adj : List (Int × List Int)) : Prop :=
  ∀ u v, v ∈ nbrOf adj u → u ∈ nbrOf adj v

theorem HasWalk.reverse {adj : List (Int × List Int)} (hsym : SymmAdj adj)
    {n : Nat} {a b : Int} (h : HasWalk (nbrOf adj) n a b) :
    HasWalk (nbrOf adj) n b a := by
  induction h with
  | nil v => exact HasWalk.nil v
  | cons hb _ ih => exact ih.snoc (hsym _ _ hb)

theorem HasWalk.transfer {adjA adjB : List (Int × List Int)}
    (hperm : ∀ u, (nbrOf adjA u).Perm (nbrOf adjB u)) {n : Nat} {a b : Int}
    (h : HasWalk (nbrOf adjA) n a b) : HasWalk (nbrOf adjB) n a b := by
  induction h with
  | nil v => exact HasWalk.nil v
  | cons hb _ ih => exact HasWalk.cons ((hperm _).mem_iff.mp hb) ih

/-- Characterization of the root-anchored entries of a finished traversal:
the reflexive root entry, plus one entry (start, d, depth d) for every
non-root visited node d. -/
theorem final_root_entry_iff {nbr : Int → List Int} {start : Int} {st : BfsSt}
    (inv : LoopInv nbr start st) (hq : st.queue = []) (e : Entry)
    (hanc : e.1 = start) :
    e ∈ st.entries ↔ e = (start, start, 0)
      ∨ (e.2.1 ∈ st.visited ∧ e.2.1 ≠ start
          ∧ e.2.2 = depthP st.parent e.2.1) := by
  constructor
  · intro he
    rcases final_entry_cases inv hq he with h | ⟨hdvis, hdne, i, hget, hdep⟩
    · exact Or.inl h
    · refine Or.inr ⟨hdvis, hdne, ?_⟩
      obtain ⟨pre, hpre⟩ := chainTo_ends_start inv.pmInv
        (inv.visEq ▸ hdvis) hdne
      have hnodupc := chainTo_nodup inv.pmInv e.2.1
      rw [hpre] at hget hnodupc
      have hstartpre : start ∉ pre :=
        fun hmem => (List.disjoint_of_nodup_append hnodupc) hmem (by simp)
      have hilen : i = pre.length := by
        rcases Nat.lt_trichotomy i pre.length with hlt | heq | hgt
        · exfalso
          rw [List.get?_append hlt] at hget
          rw [hanc] at hget
          exact hstartpre (List.get?_mem hget)
        · exact heq
        · exfalso
          have : (pre ++ [start]).length ≤ i := by
            simp only [List.length_append, List.length_singleton]
            omega
          rw [List.get?_eq_none.mpr this] at hget
          cases hget
      rw [depthP, hpre]
      simp only [List.length_append, List.length_singleton]
      omega
  · intro hcase
    rcases hcase with rfl | ⟨hdvis, hdne, hdep⟩
    · rw [final_entries_shape inv hq]
      exact List.mem_cons_self ..
    · have hblock : e ∈ blockOf st.parent e.2.1 := by
        obtain ⟨pre, hpre⟩ := chainTo_ends_start inv.pmInv
          (inv.visEq ▸ hdvis) hdne
        refine mem_blockOf.mpr ⟨pre.length, start, ?_, ?_⟩
        · rw [hpre]
          exact List.get?_concat_length pre start
        · have hlen : depthP st.parent e.2.1 = pre.length + 1 := by
            rw [depthP, hpre]
            simp
          obtain ⟨e1, e2, e3⟩ := e
          simp only at hanc hdep ⊢
          rw [hanc, hdep, hlen]
      have heq := final_entriesFor_nonroot inv hq hdvis hdne
      have : e ∈ entriesFor st.entries e.2.1 := by
        rw [heq]
        exact hblock
      exact List.mem_of_mem_filter this

/-- The root self-entry is always produced. -/
theorem bfs_self_entry (adj : List (Int × List Int)) (s : Int) :
    (s, s, 0) ∈ bfs_traversal adj s := by
  obtain ⟨inv, hq⟩ := bfsRun_spec adj s
  show (s, s, 0) ∈ (bfsRun adj s).entries
  rw [final_entries_shape inv hq]
  exact List.mem_cons_self ..

/-- Every visited node appears as the descendant of some entry. -/
theorem bfs_visited_appears (adj : List (Int × List Int)) (s : Int) :
    ∀ v ∈ (bfsRun adj s).visited, ∃ e ∈ bfs_traversal adj s, e.2.1 = v := by
  intro v hv
  obtain ⟨inv, hq⟩ := bfsRun_spec adj s
  by_cases hvs : v = s
  · exact ⟨(s, s, 0), bfs_self_entry adj s, hvs.symm⟩
  · have hvkeys : v ∈ keysOf (bfsRun adj s).parent := inv.visEq ▸ hv
    obtain ⟨pre, hpre⟩ := chainTo_ends_start inv.pmInv hvkeys hvs
    have hchne : chainTo (bfsRun adj s).parent (bfsRun adj s).parent.length v
        ≠ [] := by
      rw [hpre]
      simp
    obtain ⟨c, rest2, hc⟩ := List.exists_cons_of_ne_nil hchne
    have hmem : (c, v, 1) ∈ blockOf (bfsRun adj s).parent v := by
      refine mem_blockOf.mpr ⟨0, c, ?_, rfl⟩
      rw [hc]
      rfl
    have heq := final_entriesFor_nonroot inv hq hv hvs
    refine ⟨(c, v, 1), ?_, rfl⟩
    have : (c, v, 1) ∈ entriesFor (bfsRun adj s).entries v := by
      rw [heq]
      exact hmem
    exact List.mem_of_mem_filter this

theorem markVisited_mem {vg : List Int} {es : List Entry} {v : Int} :
    v ∈ markVisited vg es ↔ v ∈ vg ∨ ∃ e ∈ es, v = e.1 ∨ v = e.2.1 := by
  induction es generalizing vg with
  | nil => simp [markVisited]
  | cons e t ih =>
    show v ∈ markVisited (setAdd (setAdd vg e.1) e.2.1) t ↔ _
    rw [ih]
    simp only [mem_setAdd, List.mem_cons]
    constructor
    · rintro (((h | h) | h) | ⟨e2, he2, h⟩)
      · exact Or.inl h
      · exact Or.inr ⟨e, Or.inl rfl, Or.inl h⟩
      · exact Or.inr ⟨e, Or.inl rfl, Or.inr h⟩
      · exact Or.inr ⟨e2, Or.inr he2, h⟩
    · rintro (h | ⟨e2, he2, h⟩)
      · exact Or.inl (Or.inl (Or.inl h))
      · rcases he2 with rfl | he3
        · rcases h with h | h
          · exact Or.inl (Or.inl (Or.inr h))
          · exact Or.inl (Or.inr h)
        · exact Or.inr ⟨e2, he3, h⟩

theorem mainClosureLoop_mono {adj : List (Int × List Int)} :
    ∀ (l : List Int) (vg : List Int) (acc : List Entry) {e : Entry},
      e ∈ acc → e ∈ mainClosureLoop adj l vg acc := by
  intro l
  induction l with
  | nil => intro vg acc e he; exact he
  | cons u l2 ih =>
    intro vg acc e he
    by_cases hu : u ∈ vg
    · rw [mainClosureLoop, if_pos hu]
      exact ih _ _ he
    · rw [mainClosureLoop, if_neg hu]
      exact ih _ _ (List.mem_append_left _ he)

theorem mainClosureLoop_covers {adj : List (Int × List Int)} :
    ∀ (l : List Int) (vg : List Int) (acc : List Entry),
      (∀ w ∈ vg, ∃ e ∈ acc, w = e.1 ∨ w = e.2.1) →
      ∀ v ∈ l, ∃ e ∈ mainClosureLoop adj l vg acc, v = e.1 ∨ v = e.2.1 := by
  intro l
  induction l with
  | nil => intro vg acc _ v hv; cases hv
  | cons u l2 ih =>
    intro vg acc hinv v hv
    by_cases hu : u ∈ vg
    · rw [mainClosureLoop, if_pos hu]
      rcases List.mem_cons.mp hv with rfl | hv2
      · obtain ⟨e, he, hcomp⟩ := hinv v hu
        exact ⟨e, mainClosureLoop_mono _ _ _ he, hcomp⟩
      · exact ih _ _ hinv v hv2
    · rw [mainClosureLoop, if_neg hu]
      have hinv2 : ∀ w ∈ markVisited vg (bfs_traversal adj u),
          ∃ e ∈ acc ++ bfs_traversal adj u, w = e.1 ∨ w = e.2.1 := by
        intro w hw
        rcases markVisited_mem.mp hw with hw2 | ⟨e, he, hcomp⟩
        · obtain ⟨e, he, hcomp⟩ := hinv w hw2
          exact ⟨e, List.mem_append_left _ he, hcomp⟩
        · exact ⟨e, List.mem_append_right _ he, hcomp⟩
      rcases List.mem_cons.mp hv with rfl | hv2
      · refine ⟨(v, v, 0), ?_, Or.inl rfl⟩
        exact mainClosureLoop_mono _ _ _
          (List.mem_append_right _ (bfs_self_entry adj v))
      · exact ih _ _ hinv2 v hv2

/-- Orchestrator coverage: every node id listed by get_nodes appears in the
aggregated closure entries of main(), as an ancestor or as a descendant. -/
theorem build_all_closures_coverage (g : ManualNetworkAdapter) :
    ∀ v ∈ g.get_nodes, ∃ e ∈ build_all_closures g, v = e.1 ∨ v = e.2.1 := by
  intro v hv
  exact mainClosureLoop_covers _ [] [] (by intro w hw; cases hw) v hv

theorem mem_aupd {κ α : Type} [DecidableEq κ] {m : List (κ × α)} {k : κ}
    {f : α → α} {kv : κ × α} :
    kv ∈ aupd m k f ↔ ∃ kv0 ∈ m, kv = if kv0.1 = k then (k, f kv0.2) else kv0 := by
  rw [aupd]
  constructor
  · intro h
    obtain ⟨kv0, hkv0, rfl⟩ := List.mem_map.mp h
    exact ⟨kv0, hkv0, rfl⟩
  · rintro ⟨kv0, hkv0, rfl⟩
    exact List.mem_map.mpr ⟨kv0, hkv0, rfl⟩

theorem keysOf_subset_edgeInsert (m : List (Int × List Int)) (a b : Int) :
    keysOf m ⊆ keysOf (edgeInsert m a b)
    ∧ a ∈ keysOf (edgeInsert m a b) ∧ b ∈ keysOf (edgeInsert m a b) := by
  rw [edgeInsert]
  set e1 := if (afind m a).isSome then m else m ++ [(a, [])] with he1
  set e2 := if (afind e1 b).isSome then e1 else e1 ++ [(b, [])] with he2
  have h1 : keysOf m ⊆ keysOf e1 ∧ a ∈ keysOf e1 := by
    rw [he1]
    by_cases h : (afind m a).isSome
    · exact ⟨by simp [h], by rw [if_pos h]; exact afind_isSome_iff.mp h⟩
    · rw [if_neg h, keysOf_append]
      exact ⟨fun x hx => List.mem_append_left _ hx,
        List.mem_append_right _ (by simp [keysOf])⟩
  have h2 : keysOf e1 ⊆ keysOf e2 ∧ b ∈ keysOf e2 := by
    rw [he2]
    by_cases h : (afind e1 b).isSome
    · exact ⟨by simp [h], by rw [if_pos h]; exact afind_isSome_iff.mp h⟩
    · rw [if_neg h, keysOf_append]
      exact ⟨fun x hx => List.mem_append_left _ hx,
        List.mem_append_right _ (by simp [keysOf])⟩
  rw [keysOf_aupd, keysOf_aupd]
  exact ⟨fun x hx => h2.1 (h1.1 hx), h2.1 h1.2, h2.2⟩

theorem edgeInsert_mem_pair {m : List (Int × List Int)} {a b : Int}
    {kv : Int × List Int} (h : kv ∈ edgeInsert m a b) :
    (kv.1 = a → b ∈ kv.2) ∧ (kv.1 = b → a ∈ kv.2) := by
  rw [edgeInsert] at h
  obtain ⟨kv0, hkv0, hkv⟩ := mem_aupd.mp h
  obtain ⟨kv1, hkv1, hkv0e⟩ := mem_aupd.mp hkv0
  by_cases h0b : kv0.1 = b
  · rw [if_pos h0b] at hkv
    subst hkv
    constructor
    · intro hba
      rw [mem_setAdd]
      exact Or.inr hba
    · intro _
      rw [mem_setAdd]
      exact Or.inr rfl
  · rw [if_neg h0b] at hkv
    subst hkv
    constructor
    · intro h0a
      by_cases h1a : kv1.1 = a
      · rw [if_pos h1a] at hkv0e
        subst hkv0e
        rw [mem_setAdd]
        exact Or.inr rfl
      · rw [if_neg h1a] at hkv0e
        subst hkv0e
        exact absurd h0a h1a
    · intro h0b2
      exact absurd h0b2 h0b

theorem edgeInsert_stable {m : List (Int × List Int)} {a b : Int}
    (ha : a ∈ keysOf m) (hb : b ∈ keysOf m)
    (hpairs : ∀ kv ∈ m, (kv.1 = a → b ∈ kv.2) ∧ (kv.1 = b → a ∈ kv.2)) :
    edgeInsert m a b = m := by
  rw [edgeInsert]
  rw [if_pos (afind_isSome_iff.mpr ha)]
  rw [if_pos (afind_isSome_iff.mpr hb)]
  have hinner : aupd m a (fun s => setAdd s b) = m := by
    refine aupd_congr_id (fun kv hm hk => ?_)
    show setAdd kv.2 b = kv.2
    rw [setAdd, if_pos ((hpairs kv hm).1 hk)]
  rw [hinner]
  refine aupd_congr_id (fun kv hm hk => ?_)
  show setAdd kv.2 a = kv.2
  rw [setAdd, if_pos ((hpairs kv hm).2 hk)]

theorem edgeInsert_idem (m : List (Int × List Int)) (a b : Int) :
    edgeInsert (edgeInsert m a b) a b = edgeInsert m a b := by
  obtain ⟨_, ha, hb⟩ := keysOf_subset_edgeInsert m a b
  exact edgeInsert_stable ha hb (fun kv hm => edgeInsert_mem_pair hm)

theorem edgeInsert_swap_idem (m : List (Int × List Int)) (a b : Int) :
    edgeInsert (edgeInsert m a b) b a = edgeInsert m a b := by
  obtain ⟨_, ha, hb⟩ := keysOf_subset_edgeInsert m a b
  refine edgeInsert_stable hb ha ?_
  intro kv hm
  exact ⟨(edgeInsert_mem_pair hm).2, (edgeInsert_mem_pair hm).1⟩

theorem edgeInsert_nbr_left (m : List (Int × List Int)) (a b : Int) :
    b ∈ nbrOf (edgeInsert m a b) a := by
  obtain ⟨_, ha, _⟩ := keysOf_subset_edgeInsert m a b
  rcases hfind : afind (edgeInsert m a b) a with _ | l
  · exact absurd (afind_eq_none_iff.mp hfind) (by simp [ha])
  · have := (edgeInsert_mem_pair (afind_mem hfind)).1 rfl
    simp only [nbrOf, hfind, Option.getD_some]
    exact this

theorem edgeInsert_nbr_right (m : List (Int × List Int)) (a b : Int) :
    a ∈ nbrOf (edgeInsert m a b) b := by
  obtain ⟨_, _, hb⟩ := keysOf_subset_edgeInsert m a b
  rcases hfind : afind (edgeInsert m a b) b with _ | l
  · exact absurd (afind_eq_none_iff.mp hfind) (by simp [hb])
  · have := (edgeInsert_mem_pair (afind_mem hfind)).2 rfl
    simp only [nbrOf, hfind, Option.getD_some]
    exact this

theorem afind_map_setkey {κ α : Type} [DecidableEq κ] {k : κ} {v : α} :
    ∀ {m : List (κ × α)}, k ∈ keysOf m →
      afind (m.map fun kv => if kv.1 = k then (k, v) else kv) k = some v := by
  intro m
  induction m with
  | nil => intro h; cases h
  | cons kv rest ih =>
    intro h
    by_cases hk : kv.1 = k
    · simp [afind, hk]
    · simp only [List.map_cons, if_neg hk]
      have hne : ¬(k = kv.1) := fun hcon => hk hcon.symm
      simp only [afind, hne, if_false]
      refine ih ?_
      rcases List.mem_cons.mp h with hcon | h2
      · exact absurd hcon.symm hk
      · exact h2

theorem afind_map_setkey_ne {κ α : Type} [DecidableEq κ] {k j : κ} {v : α}
    (hne : j ≠ k) : ∀ (m : List (κ × α)),
      afind (m.map fun kv => if kv.1 = k then (k, v) else kv) j = afind m j := by
  intro m
  induction m with
  | nil => rfl
  | cons kv rest ih =>
    by_cases hk : kv.1 = k
    · simp only [List.map_cons, if_pos hk, afind, if_neg hne]
      have : ¬(j = kv.1) := fun h => hne (hk ▸ h)
      rw [if_neg this]
      exact ih
    · simp only [List.map_cons, if_neg hk, afind]
      by_cases hj : j = kv.1
      · rw [if_pos hj, if_pos hj]
      · rw [if_neg hj, if_neg hj]
        exact ih

theorem afind_aset_self {κ α : Type} [DecidableEq κ] (m : List (κ × α))
    (k : κ) (v : α) : afind (aset m k v) k = some v := by
  rw [aset]
  by_cases h : (afind m k).isSome
  · rw [if_pos h]
    exact afind_map_setkey (afind_isSome_iff.mp h)
  · rw [if_neg h]
    rw [afind_append_of_none _ (by
      rcases hf : afind m k with _ | w
      · rfl
      · rw [hf] at h; simp at h)]
    simp [afind]

theorem afind_aset_ne {κ α : Type} [DecidableEq κ] (m : List (κ × α))
    {k j : κ} (v : α) (hne : j ≠ k) : afind (aset m k v) j = afind m j := by
  rw [aset]
  by_cases h : (afind m k).isSome
  · rw [if_pos h]
    exact afind_map_setkey_ne hne m
  · rw [if_neg h]
    rcases hf : afind m j with _ | w
    · rw [afind_append_of_none _ hf]
      simp [afind, hne]
    · rw [afind_append_of_isSome [(k, v)] (by rw [hf]; rfl)]
      exact hf

theorem keysOf_aset_mem {κ α : Type} [DecidableEq κ] {m : List (κ × α)}
    {k : κ} (v : α) (h : k ∈ keysOf m) : keysOf (aset m k v) = keysOf m := by
  rw [aset, if_pos (afind_isSome_iff.mpr h)]
  clear h
  induction m with
  | nil => rfl
  | cons kv rest ih =>
    by_cases hk : kv.1 = k
    · simp only [List.map_cons, if_pos hk, keysOf, List.map_cons] at ih ⊢
      rw [hk]
      exact congrArg _ ih
    · simp only [List.map_cons, if_neg hk, keysOf, List.map_cons] at ih ⊢
      exact congrArg _ ih

theorem seg_from_csv_row_some (row : List (String × String))
    {a : Int} {b : String} {c d : Int} {e2 : Rat} {f g2 : Int}
    (h1 : (afind row "id_segmento").bind pyIntOf = some a)
    (h2 : afind row "id_circuito" = some b)
    (h3 : (afind row "nodo_inicio").bind pyIntOf = some c)
    (h4 : (afind row "nodo_fin").bind pyIntOf = some d)
    (h5 : (afind row "longitud_m").bind pyFloatOf = some e2)
    (h6 : (afind row "tipo_conductor").bind pyIntOf = some f)
    (h7 : (afind row "capacidad_amp").bind pyIntOf = some g2) :
    Segmento.from_csv_row row = some ⟨a, b, c, d, e2, f, g2⟩ := by
  unfold Segmento.from_csv_row
  rw [h1, h2, h3, h4, h5, h6, h7]

theorem seg_from_csv_row_none_longitud (row : List (String × String))
    (h : (afind row "longitud_m").bind pyFloatOf = none) :
    Segmento.from_csv_row row = none := by
  unfold Segmento.from_csv_row
  split
  · rename_i q1 q2 q3 q4 q5 q6 q7
    rw [h] at q5
    cases q5
  · rfl

theorem seg_from_csv_row_none_capacidad (row : List (String × String))
    (h : (afind row "capacidad_amp").bind pyIntOf = none) :
    Segmento.from_csv_row row = none := by
  unfold Segmento.from_csv_row
  split
  · rename_i q1 q2 q3 q4 q5 q6 q7
    rw [h] at q7
    cases q7
  · rfl

theorem nodo_from_csv_row_none_voltaje (row : List (String × String))
    (h : (afind row "voltaje_kv").bind pyFloatOf = none) :
    Nodo.from_csv_row row = none := by
  unfold Nodo.from_csv_row
  split
  · rename_i q1 q2 q3 q4 q5 q6
    rw [h] at q4
    cases q4
  · rfl

/-- Per-node BFS depth is invariant under reordering each neighbor list. -/
theorem depth_perm_eq {adjA adjB : List (Int × List Int)} {s : Int}
    (hperm : ∀ u, (nbrOf adjA u).Perm (nbrOf adjB u)) {v : Int}
    (hvA : v ∈ (bfsRun adjA s).visited) (hvB : v ∈ (bfsRun adjB s).visited) :
    depthP (bfsRun adjA s).parent v = depthP (bfsRun adjB s).parent v := by
  obtain ⟨invA, hqA⟩ := bfsRun_spec adjA s
  obtain ⟨invB, hqB⟩ := bfsRun_spec adjB s
  have hA := final_shortest invA hqA hvA
  have hB := final_shortest invB hqB hvB
  have hB2 : IsShortest (nbrOf adjA) s v (depthP (bfsRun adjB s).parent v) := by
    refine ⟨HasWalk.transfer (fun u => (hperm u).symm) hB.1, ?_⟩
    intro L hw
    exact hB.2 L (HasWalk.transfer hperm hw)
  exact hA.unique hB2

/-- Claim C1 counterexample: in the path graph 1-2, node 2 is reachable
from root 1 yet bfs_traversal(1) emits no (2, 2, 0) self-entry; the full
output is [(1, 1, 0), (1, 2, 1)], so only the root gets a depth-0 entry. -/
theorem bfs_reflexive_cex :
    HasWalk (nbrOf [(1, [2]), (2, [1])]) 1 1 2
    ∧ List.count ((2 : Int), (2 : Int), (0 : Nat))
        (bfs_traversal [(1, [2]), (2, [1])] 1) = 0
    ∧ bfs_traversal [(1, [2]), (2, [1])] 1 = [(1, 1, 0), (1, 2, 1)] := by
  refine ⟨HasWalk.cons (by decide) (HasWalk.nil 2), by decide, by decide⟩

/-- Claim C1 (amended): bfs_traversal emits exactly one reflexive entry,
for the root only.  Every other reachable node d gets no self-entry; its
entries are exactly one per strict tree-ancestor (the block of its
duplicate-free ancestor chain, which ends at the root, at depths 1, 2, ...).
Visited nodes are exactly the nodes reachable from the root. -/
theorem bfs_reflexive_amended (adj : List (Int × List Int)) (s : Int) :
    entriesFor (bfs_traversal adj s) s = [(s, s, 0)]
    ∧ (∀ v, v ∈ (bfsRun adj s).visited ↔ ∃ n, HasWalk (nbrOf adj) n s v)
    ∧ ∀ d, d ∈ (bfsRun adj s).visited → d ≠ s →
        entriesFor (bfs_traversal adj s) d = blockOf (bfsRun adj s).parent d
        ∧ (chainTo (bfsRun adj s).parent (bfsRun adj s).parent.length d).Nodup
        ∧ (∃ pre, chainTo (bfsRun adj s).parent (bfsRun adj s).parent.length d
            = pre ++ [s])
        ∧ (d, d, 0) ∉ bfs_traversal adj s := by
  obtain ⟨inv, hq⟩ := bfsRun_spec adj s
  refine ⟨final_entriesFor_start inv hq,
    fun v => final_reachable_iff inv hq v, ?_⟩
  intro d hd hne
  refine ⟨final_entriesFor_nonroot inv hq hd hne, chainTo_nodup inv.pmInv d,
    chainTo_ends_start inv.pmInv (inv.visEq ▸ hd) hne, ?_⟩
  intro hmem
  rcases final_entry_cases inv hq hmem with h | ⟨_, _, i, _, hdep⟩
  · exact hne (congrArg (fun e => e.1) h)
  · have hz : (0 : Nat) = i + 1 := hdep
    omega

/-- Claim C1 witness: the amended theorem applied to the path graph 1-2. -/
theorem bfs_reflexive_amended_witness :
    entriesFor (bfs_traversal [(1, [2]), (2, [1])] 1) 1 = [(1, 1, 0)]
    ∧ ((2 : Int) ∈ (bfsRun [(1, [2]), (2, [1])] 1).visited
        ↔ ∃ n, HasWalk (nbrOf [(1, [2]), (2, [1])]) n 1 2)
    ∧ (2, 2, 0) ∉ bfs_traversal [(1, [2]), (2, [1])] 1 :=
  ⟨(bfs_reflexive_amended [(1, [2]), (2, [1])] 1).1,
   (bfs_reflexive_amended [(1, [2]), (2, [1])] 1).2.1 2,
   ((bfs_reflexive_amended [(1, [2]), (2, [1])] 1).2.2 2 (by decide)
      (by decide)).2.2.2⟩

/-- Claim C2: in an undirected graph containing the root, every entry
(a, d, k) of bfs_traversal with k greater than 0 records the true unweighted
shortest-path distance between a and d: a walk of length k exists and no
shorter walk does, in both directions. -/
theorem bfs_depth_shortest_path (adj : List (Int × List Int)) (s : Int)
    (hsym : SymmAdj adj) (_hs : s ∈ keysOf adj) :
    ∀ a d k, (a, d, k) ∈ bfs_traversal adj s → 0 < k →
      IsShortest (nbrOf adj) a d k ∧ IsShortest (nbrOf adj) d a k := by
  obtain ⟨inv, hq⟩ := bfsRun_spec adj s
  intro a d k he hk
  rcases final_entry_cases inv hq he with h | ⟨hdvis, hdne, i, hget, hdep⟩
  · exfalso
    have hz : k = 0 := congrArg (fun e => e.2.2) h
    omega
  · have hget2 : (chainTo (bfsRun adj s).parent
        (bfsRun adj s).parent.length d).get? i = some a := hget
    have hkeq : k = i + 1 := hdep
    obtain ⟨hw0, hdeq0⟩ := chainTo_get_walk inv.pmInv hget2
    have hw : HasWalk (nbrOf adj) (i + 1) a d := hw0
    have hdeq : depthP (bfsRun adj s).parent a + (i + 1)
        = depthP (bfsRun adj s).parent d := hdeq0
    have hforward : IsShortest (nbrOf adj) a d k := by
      refine ⟨hkeq ▸ hw, ?_⟩
      intro L hwL
      have hamem : a ∈ keysOf (bfsRun adj s).parent :=
        chainTo_mem_keys inv.pmInv _ _ a (List.get?_mem hget2)
      have hsa : HasWalk (nbrOf adj)
          (depthP (bfsRun adj s).parent a) s a :=
        walk_from_start inv.pmInv hamem
      have hle := (final_walk_visited inv hq (hsa.comp hwL)
        (final_start_mem inv)).2
      rw [final_depth_zero inv] at hle
      omega
    refine ⟨hforward, hforward.1.reverse hsym, ?_⟩
    intro L hwL
    exact hforward.2 L (hwL.reverse hsym)

/-- Claim C2 witness: the theorem applied to the path graph 1-2 at its
entry (1, 2, 1). -/
theorem bfs_depth_shortest_path_witness :
    IsShortest (nbrOf [(1, [2]), (2, [1])]) 1 2 1
    ∧ IsShortest (nbrOf [(1, [2]), (2, [1])]) 2 1 1 := by
  have hsym : SymmAdj [(1, [2]), (2, [1])] := by
    intro u v hv
    by_cases h1 : u = 1
    · subst h1
      have : v = 2 := by
        simpa [nbrOf, afind] using hv
      subst this
      decide
    · by_cases h2 : u = 2
      · subst h2
        have : v = 1 := by
          simpa [nbrOf, afind] using hv
        subst this
        decide
      · simp [nbrOf, afind, h1, h2] at hv
  exact bfs_depth_shortest_path [(1, [2]), (2, [1])] 1 hsym (by decide)
    1 2 1 (by decide) (by decide)

/-- Claim C3: bfs_traversal never emits two entries with the same
(ancestor, descendant) pair, for any graph and any root. -/
theorem bfs_pairs_unique (adj : List (Int × List Int)) (s : Int) :
    (pairsOf (bfs_traversal adj s)).Nodup := by
  obtain ⟨inv, hq⟩ := bfsRun_spec adj s
  exact final_pairs_nodup inv hq

/-- The 4-cycle 1-2-3-4-1 with neighbor order [2, 4] at the root. -/
def cycleA : List (Int × List Int) :=
  [(1, [2, 4]), (2, [1, 3]), (3, [2, 4]), (4, [1, 3])]

/-- The same 4-cycle with neighbor order [4, 2] at the root. -/
def cycleB : List (Int × List Int) :=
  [(1, [4, 2]), (2, [1, 3]), (3, [2, 4]), (4, [1, 3])]

/-- Claim C4 counterexample: the two adjacency structures describe the same
graph with node 1's neighbors enumerated in a different order (all four
per-node lists are permutations of each other), yet the entry (2, 3, 1) is
produced by one run and not the other: the closure content depends on
neighbor enumeration order. -/
theorem bfs_order_cex :
    keysOf cycleA = keysOf cycleB
    ∧ (nbrOf cycleA 1).Perm (nbrOf cycleB 1)
    ∧ (nbrOf cycleA 2).Perm (nbrOf cycleB 2)
    ∧ (nbrOf cycleA 3).Perm (nbrOf cycleB 3)
    ∧ (nbrOf cycleA 4).Perm (nbrOf cycleB 4)
    ∧ ((2, 3, 1) ∈ bfs_traversal cycleA 1)
    ∧ ((2, 3, 1) ∉ bfs_traversal cycleB 1) := by
  refine ⟨by decide, by decide, by decide, by decide, by decide,
    by decide, by decide⟩

/-- Claim C4 (amended): when each node's neighbor list is permuted, the two
runs visit the same node set and agree on every entry whose ancestor is the
root (the depth of each node from the root is order-invariant); entries with
intermediate ancestors may differ, as the counterexample shows. -/
theorem bfs_order_amended (adjA adjB : List (Int × List Int)) (s : Int)
    (hperm : ∀ u, (nbrOf adjA u).Perm (nbrOf adjB u)) :
    (∀ v, v ∈ (bfsRun adjA s).visited ↔ v ∈ (bfsRun adjB s).visited)
    ∧ (∀ e : Entry, e.1 = s →
        (e ∈ bfs_traversal adjA s ↔ e ∈ bfs_traversal adjB s)) := by
  obtain ⟨invA, hqA⟩ := bfsRun_spec adjA s
  obtain ⟨invB, hqB⟩ := bfsRun_spec adjB s
  have hpermS : ∀ u, (nbrOf adjB u).Perm (nbrOf adjA u) :=
    fun u => (hperm u).symm
  have hvis : ∀ v, v ∈ (bfsRun adjA s).visited
      ↔ v ∈ (bfsRun adjB s).visited := by
    intro v
    rw [final_reachable_iff invA hqA v, final_reachable_iff invB hqB v]
    constructor
    · rintro ⟨n, hw⟩
      exact ⟨n, hw.transfer hperm⟩
    · rintro ⟨n, hw⟩
      exact ⟨n, hw.transfer hpermS⟩
  refine ⟨hvis, ?_⟩
  intro e hanc
  show e ∈ (bfsRun adjA s).entries ↔ e ∈ (bfsRun adjB s).entries
  rw [final_root_entry_iff invA hqA e hanc,
    final_root_entry_iff invB hqB e hanc]
  constructor
  · rintro (h | ⟨h1, h2, h3⟩)
    · exact Or.inl h
    · refine Or.inr ⟨(hvis _).mp h1, h2, ?_⟩
      rw [h3]
      exact depth_perm_eq hperm h1 ((hvis _).mp h1)
  · rintro (h | ⟨h1, h2, h3⟩)
    · exact Or.inl h
    · refine Or.inr ⟨(hvis _).mpr h1, h2, ?_⟩
      rw [h3]
      exact (depth_perm_eq hperm ((hvis _).mpr h1) h1).symm

/-- Claim C4 witness: the amended theorem applied to the two 4-cycle
orderings: node 3 is visited by both runs, and the root-anchored entry
(1, 3, 2) appears in one run iff it appears in the other. -/
theorem bfs_order_amended_witness :
    ((3 : Int) ∈ (bfsRun cycleA 1).visited
      ↔ (3 : Int) ∈ (bfsRun cycleB 1).visited)
    ∧ (((1, 3, 2) : Entry) ∈ bfs_traversal cycleA 1
      ↔ ((1, 3, 2) : Entry) ∈ bfs_traversal cycleB 1) := by
  have hperm : ∀ u, (nbrOf cycleA u).Perm (nbrOf cycleB u) := by
    intro u
    by_cases h1 : u = 1
    · subst h1
      decide
    · by_cases h2 : u = 2
      · subst h2
        decide
      · by_cases h3 : u = 3
        · subst h3
          decide
        · by_cases h4 : u = 4
          · subst h4
            decide
          · simp [nbrOf, cycleA, cycleB, afind, h1, h2, h3, h4]
  exact ⟨(bfs_order_amended cycleA cycleB 1 hperm).1 3,
    (bfs_order_amended cycleA cycleB 1 hperm).2 (1, 3, 2) rfl⟩

/-- Claim C5 counterexample: a one-component network built from the source
pipeline whose get_nodes order lists the non-substation node 2 first.  The
root selector would return the substation node 1, but the orchestrator of
main() starts BFS at node 2 (its self-entry (2, 2, 0) is in the output and
node 1's self-entry is not): the traversal does not start from the
substation-marked node. -/
theorem orchestrator_root_cex :
    NetworkBuilder.find_subestacion_node
        (NetworkBuilder.build_network ManualNetworkAdapter.empty
          [⟨2, "N2", "POSTE", 13, 0, 0⟩, ⟨1, "N1", "Subestacion", 34, 1, 1⟩]
          [⟨1, "C1", 2, 1, 100, 1, 200⟩])
      = some 1
    ∧ afind ((NetworkBuilder.build_network ManualNetworkAdapter.empty
          [⟨2, "N2", "POSTE", 13, 0, 0⟩, ⟨1, "N1", "Subestacion", 34, 1, 1⟩]
          [⟨1, "C1", 2, 1, 100, 1, 200⟩]).get_node_attributes 2) "tipo"
      ≠ some (AttrVal.str "Subestacion")
    ∧ build_all_closures (NetworkBuilder.build_network ManualNetworkAdapter.empty
          [⟨2, "N2", "POSTE", 13, 0, 0⟩, ⟨1, "N1", "Subestacion", 34, 1, 1⟩]
          [⟨1, "C1", 2, 1, 100, 1, 200⟩])
      = [(2, 2, 0), (2, 1, 1)]
    ∧ ((1, 1, 0) ∉ build_all_closures (NetworkBuilder.build_network
          ManualNetworkAdapter.empty
          [⟨2, "N2", "POSTE", 13, 0, 0⟩, ⟨1, "N1", "Subestacion", 34, 1, 1⟩]
          [⟨1, "C1", 2, 1, 100, 1, 200⟩])) := by
  refine ⟨by decide, by decide, by decide, by decide⟩

/-- Claim C5 (amended): the orchestrator of main() ignores node types: each
component's BFS starts at the first not-yet-visited node in get_nodes order
(in particular the very first traversal is rooted at the head of get_nodes,
whose self-entry always appears), find_subestacion_node is never consulted,
and nevertheless every node listed by get_nodes appears in the aggregated
closure entries. -/
theorem orchestrator_coverage_amended (g : ManualNetworkAdapter) :
    (∀ v ∈ g.get_nodes, ∃ e ∈ build_all_closures g, v = e.1 ∨ v = e.2.1)
    ∧ (∀ v rest, g.get_nodes = v :: rest →
        (v, v, 0) ∈ build_all_closures g) := by
  refine ⟨build_all_closures_coverage g, ?_⟩
  intro v rest hv
  rw [build_all_closures, hv]
  have hstep : mainClosureLoop g.edges (v :: rest) [] []
      = mainClosureLoop g.edges rest
          (markVisited [] (bfs_traversal g.edges v))
          ([] ++ bfs_traversal g.edges v) := by
    rw [mainClosureLoop]
    rw [if_neg (List.not_mem_nil v)]
  rw [hstep]
  exact mainClosureLoop_mono _ _ _
    (List.mem_append_right _ (bfs_self_entry _ v))

/-- Claim C5 witness: the amended theorem applied to the counterexample
network: node 1 is covered, and the head node 2 gets its self-entry. -/
theorem orchestrator_coverage_amended_witness :
    (∃ e ∈ build_all_closures (NetworkBuilder.build_network
        ManualNetworkAdapter.empty
        [⟨2, "N2", "POSTE", 13, 0, 0⟩, ⟨1, "N1", "Subestacion", 34, 1, 1⟩]
        [⟨1, "C1", 2, 1, 100, 1, 200⟩]), (1 : Int) = e.1 ∨ (1 : Int) = e.2.1)
    ∧ (2, 2, 0) ∈ build_all_closures (NetworkBuilder.build_network
        ManualNetworkAdapter.empty
        [⟨2, "N2", "POSTE", 13, 0, 0⟩, ⟨1, "N1", "Subestacion", 34, 1, 1⟩]
        [⟨1, "C1", 2, 1, 100, 1, 200⟩]) :=
  ⟨(orchestrator_coverage_amended _).1 1 (by decide),
   (orchestrator_coverage_amended _).2 2 [1] (by decide)⟩

/-- Claim C6 counterexample: adding the edge (1, 99) when only node 1 was
registered leaves get_nodes() equal to [1]: the implicitly created endpoint
99 does not appear in get_nodes(), although it does appear in the adjacency
and in the closure entries. -/
theorem add_edge_placeholder_cex :
    ManualNetworkAdapter.get_nodes
        (ManualNetworkAdapter.add_edge
          (ManualNetworkAdapter.add_node ManualNetworkAdapter.empty 1 []) 1 99 [])
      = [1]
    ∧ ((99 : Int) ∉ ManualNetworkAdapter.get_nodes
        (ManualNetworkAdapter.add_edge
          (ManualNetworkAdapter.add_node ManualNetworkAdapter.empty 1 []) 1 99 []))
    ∧ (99 : Int) ∈ ManualNetworkAdapter.get_neighbors
        (ManualNetworkAdapter.add_edge
          (ManualNetworkAdapter.add_node ManualNetworkAdapter.empty 1 []) 1 99 []) 1
    ∧ ((1, 99, 1) : Entry) ∈ ManualNetworkAdapter.bfs_traversal
        (ManualNetworkAdapter.add_edge
          (ManualNetworkAdapter.add_node ManualNetworkAdapter.empty 1 []) 1 99 []) 1 := by
  refine ⟨by decide, by decide, by decide, by decide⟩

/-- Claim C6 (amended): an absent endpoint of add_edge is implicitly created
in the adjacency structure only: it becomes a neighbor of the other
endpoint (symmetrically), its attribute lookup yields an empty bag, and it
appears in the closure entries of a traversal of its component; but the
nodes dict, and hence get_nodes(), is unchanged by add_edge. -/
theorem add_edge_placeholder_amended (g : ManualNetworkAdapter) (a b : Int)
    (ats : Attrs) :
    ((g.add_edge a b ats).nodes = g.nodes)
    ∧ ((g.add_edge a b ats).get_nodes = g.get_nodes)
    ∧ b ∈ (g.add_edge a b ats).get_neighbors a
    ∧ a ∈ (g.add_edge a b ats).get_neighbors b
    ∧ (b ∉ keysOf g.nodes → (g.add_edge a b ats).get_node_attributes b = [])
    ∧ (∃ e ∈ (g.add_edge a b ats).bfs_traversal a, e.2.1 = b) := by
  refine ⟨rfl, rfl, edgeInsert_nbr_left g.edges a b,
    edgeInsert_nbr_right g.edges a b, ?_, ?_⟩
  · intro hb
    show (afind g.nodes b).getD [] = []
    rw [afind_eq_none_iff.mpr hb]
    rfl
  · obtain ⟨inv, hq⟩ := bfsRun_spec (edgeInsert g.edges a b) a
    have hreach : b ∈ (bfsRun (edgeInsert g.edges a b) a).visited :=
      (final_walk_visited inv hq
        (HasWalk.cons (edgeInsert_nbr_left g.edges a b) (HasWalk.nil b))
        (final_start_mem inv)).1
    exact bfs_visited_appears _ a b hreach

/-- Claim C6 witness: the amended theorem applied to the counterexample
state (node 1 registered, edge (1, 99) added). -/
theorem add_edge_placeholder_amended_witness :
    ((ManualNetworkAdapter.add_node ManualNetworkAdapter.empty 1
        []).add_edge 1 99 []).get_node_attributes 99 = []
    ∧ (∃ e ∈ ((ManualNetworkAdapter.add_node ManualNetworkAdapter.empty 1
        []).add_edge 1 99 []).bfs_traversal 1, e.2.1 = 99) :=
  ⟨(add_edge_placeholder_amended
      (ManualNetworkAdapter.add_node ManualNetworkAdapter.empty 1 []) 1 99
      []).2.2.2.2.1 (by decide),
   (add_edge_placeholder_amended
      (ManualNetworkAdapter.add_node ManualNetworkAdapter.empty 1 []) 1 99
      []).2.2.2.2.2⟩

/-- Claim C7: get_neighbors of an id absent from the graph returns an empty
list (no exception), in the manual adapter (directly from the source's
dict .get default) and in the NetworkX adapter as modelled from the spec's
graph contract. -/
theorem get_neighbors_absent (g : ManualNetworkAdapter) (h : NxGraph)
    (id : Int) (hg : id ∉ keysOf g.edges) (hh : id ∉ keysOf h.adj) :
    g.get_neighbors id = [] ∧ h.get_neighbors id = [] := by
  constructor
  · show (afind g.edges id).getD [] = []
    rw [afind_eq_none_iff.mpr hg]
    rfl
  · show (afind h.adj id).getD [] = []
    rw [afind_eq_none_iff.mpr hh]
    rfl

/-- Claim C7 witness: both adapters, id 5 absent from one-node graphs. -/
theorem get_neighbors_absent_witness :
    (ManualNetworkAdapter.add_node ManualNetworkAdapter.empty 1
        []).get_neighbors 5 = []
    ∧ (NxGraph.add_node NxGraph.empty 1 []).get_neighbors 5 = [] :=
  get_neighbors_absent _ _ 5 (by decide) (by decide)

/-- Claim C8 counterexample: Segmento.from_csv_row accepts a record with
negative longitud_m and negative capacidad_amp and constructs the entity
with the negative values, instead of failing: there is no range validation
at entity-construction time. -/
theorem from_csv_row_negative_cex :
    Segmento.from_csv_row
        [("id_segmento", "7"), ("id_circuito", "C1"), ("nodo_inicio", "1"),
         ("nodo_fin", "2"), ("longitud_m", "-1.0"), ("tipo_conductor", "1"),
         ("capacidad_amp", "-5")]
      = some ⟨7, "C1", 1, 2, -1, 1, -5⟩
    ∧ ((-1 : Rat) < 0) ∧ ((-5 : Int) < 0) := by
  refine ⟨by decide, by decide, by decide⟩

/-- Claim C8 (amended): entity construction fails (the int()/float()
conversion raises) exactly on missing or non-numeric fields - shown here
for Segmento's longitud_m and capacidad_amp and Nodo's voltaje_kv - but
performs no range validation: whenever every field converts, the record is
constructed with the converted values unchanged, whatever their signs. -/
theorem from_csv_row_amended :
    (∀ row, (afind row "longitud_m").bind pyFloatOf = none →
        Segmento.from_csv_row row = none)
    ∧ (∀ row, (afind row "capacidad_amp").bind pyIntOf = none →
        Segmento.from_csv_row row = none)
    ∧ (∀ row, (afind row "voltaje_kv").bind pyFloatOf = none →
        Nodo.from_csv_row row = none)
    ∧ (∀ (row : List (String × String)) (a : Int) (b : String) (c d : Int)
        (e2 : Rat) (f g2 : Int),
        (afind row "id_segmento").bind pyIntOf = some a →
        afind row "id_circuito" = some b →
        (afind row "nodo_inicio").bind pyIntOf = some c →
        (afind row "nodo_fin").bind pyIntOf = some d →
        (afind row "longitud_m").bind pyFloatOf = some e2 →
        (afind row "tipo_conductor").bind pyIntOf = some f →
        (afind row "capacidad_amp").bind pyIntOf = some g2 →
        Segmento.from_csv_row row = some ⟨a, b, c, d, e2, f, g2⟩) :=
  ⟨seg_from_csv_row_none_longitud, seg_from_csv_row_none_capacidad,
   nodo_from_csv_row_none_voltaje,
   fun row a b c d e2 f g2 h1 h2 h3 h4 h5 h6 h7 =>
     seg_from_csv_row_some row h1 h2 h3 h4 h5 h6 h7⟩

/-- Claim C8 witness: the amended theorem applied to a non-numeric record
and to the all-negative record of the counterexample. -/
theorem from_csv_row_amended_witness :
    Segmento.from_csv_row [("id_segmento", "7"), ("longitud_m", "abc")] = none
    ∧ Segmento.from_csv_row
        [("id_segmento", "7"), ("id_circuito", "C1"), ("nodo_inicio", "1"),
         ("nodo_fin", "2"), ("longitud_m", "-1.0"), ("tipo_conductor", "1"),
         ("capacidad_amp", "-5")]
      = some ⟨7, "C1", 1, 2, -1, 1, -5⟩ :=
  ⟨from_csv_row_amended.1 _ (by decide),
   from_csv_row_amended.2.2.2 _ 7 "C1" 1 2 (-1) 1 (-5) (by decide) (by decide)
     (by decide) (by decide) (by decide) (by decide) (by decide)⟩

theorem ensure_stable {α : Type} {m : List (Int × α)} {k : Int} (pad : α)
    (h : k ∈ keysOf m) :
    (if (afind m k).isSome then m else m ++ [(k, pad)]) = m :=
  if_pos (afind_isSome_iff.mpr h)

theorem ensure_keys {α : Type} (m : List (Int × α)) (k : Int) (pad : α) :
    keysOf m ⊆ keysOf (if (afind m k).isSome then m else m ++ [(k, pad)])
    ∧ k ∈ keysOf (if (afind m k).isSome then m else m ++ [(k, pad)]) := by
  by_cases h : (afind m k).isSome
  · rw [if_pos h]
    exact ⟨fun x hx => hx, afind_isSome_iff.mp h⟩
  · rw [if_neg h, keysOf_append]
    exact ⟨fun x hx => List.mem_append_left _ hx,
      List.mem_append_right _ (by simp [keysOf])⟩

theorem nx_add_edge_eq (h : NxGraph) (a b : Int) (s : Attrs)
    (ha : a ∈ keysOf h.nodesL) (hb : b ∈ keysOf h.nodesL) :
    h.add_edge a b s = NxGraph.mk h.nodesL (edgeInsert h.adj a b) := by
  show NxGraph.mk
      (if (afind (if (afind h.nodesL a).isSome then h.nodesL
          else h.nodesL ++ [(a, [])]) b).isSome
        then (if (afind h.nodesL a).isSome then h.nodesL
          else h.nodesL ++ [(a, [])])
        else (if (afind h.nodesL a).isSome then h.nodesL
          else h.nodesL ++ [(a, [])]) ++ [(b, [])])
      (edgeInsert h.adj a b)
    = NxGraph.mk h.nodesL (edgeInsert h.adj a b)
  rw [ensure_stable ([] : Attrs) ha, ensure_stable ([] : Attrs) hb]

theorem nx_add_edge_keys (h : NxGraph) (a b : Int) (s : Attrs) :
    keysOf h.nodesL ⊆ keysOf (h.add_edge a b s).nodesL
    ∧ a ∈ keysOf (h.add_edge a b s).nodesL
    ∧ b ∈ keysOf (h.add_edge a b s).nodesL := by
  have h1 := ensure_keys h.nodesL a ([] : Attrs)
  have h2 := ensure_keys
    (if (afind h.nodesL a).isSome then h.nodesL else h.nodesL ++ [(a, [])])
    b ([] : Attrs)
  exact ⟨fun x hx => h2.1 (h1.1 hx), h2.1 h1.2, h2.2⟩

/-- Claim C9: adding the same edge a second time, or adding it with the
endpoints swapped, leaves the graph state exactly as after the first
addition, in the manual adapter (from the source: set inserts are
idempotent) and in the NetworkX adapter as modelled from the spec (one
undirected edge per unordered pair). -/
theorem add_edge_idempotent (g : ManualNetworkAdapter) (h : NxGraph)
    (a b : Int) (s1 s2 : Attrs) :
    (g.add_edge a b s1).add_edge a b s2 = g.add_edge a b s1
    ∧ (g.add_edge a b s1).add_edge b a s2 = g.add_edge a b s1
    ∧ (h.add_edge a b s1).add_edge a b s2 = h.add_edge a b s1
    ∧ (h.add_edge a b s1).add_edge b a s2 = h.add_edge a b s1 := by
  refine ⟨?_, ?_, ?_, ?_⟩
  · show ManualNetworkAdapter.mk g.nodes
        (edgeInsert (edgeInsert g.edges a b) a b)
      = ManualNetworkAdapter.mk g.nodes (edgeInsert g.edges a b)
    rw [edgeInsert_idem]
  · show ManualNetworkAdapter.mk g.nodes
        (edgeInsert (edgeInsert g.edges a b) b a)
      = ManualNetworkAdapter.mk g.nodes (edgeInsert g.edges a b)
    rw [edgeInsert_swap_idem]
  · obtain ⟨_, ha, hb⟩ := nx_add_edge_keys h a b s1
    rw [nx_add_edge_eq _ a b s2 ha hb]
    show NxGraph.mk (h.add_edge a b s1).nodesL
        (edgeInsert (edgeInsert h.adj a b) a b) = h.add_edge a b s1
    rw [edgeInsert_idem]
    rfl
  · obtain ⟨_, ha, hb⟩ := nx_add_edge_keys h a b s1
    rw [nx_add_edge_eq _ b a s2 hb ha]
    show NxGraph.mk (h.add_edge a b s1).nodesL
        (edgeInsert (edgeInsert h.adj a b) b a) = h.add_edge a b s1
    rw [edgeInsert_swap_idem]
    rfl

/-- Claim C10: re-adding an already-registered node replaces only its
attribute bag: the node list, its own neighbor set, and the attributes and
adjacency of every other node are unchanged - in the manual adapter from
the source, and in the NetworkX adapter as modelled from the spec. -/
theorem add_node_frame (g : ManualNetworkAdapter) (h : NxGraph) (id : Int)
    (a2 : Attrs) (hgn : id ∈ keysOf g.nodes) (hge : id ∈ keysOf g.edges)
    (hhn : id ∈ keysOf h.nodesL) (hhe : id ∈ keysOf h.adj) :
    ((g.add_node id a2).edges = g.edges)
    ∧ ((g.add_node id a2).get_nodes = g.get_nodes)
    ∧ ((g.add_node id a2).get_node_attributes id = a2)
    ∧ (∀ j, j ≠ id → (g.add_node id a2).get_node_attributes j
        = g.get_node_attributes j)
    ∧ (∀ j, (g.add_node id a2).get_neighbors j = g.get_neighbors j)
    ∧ ((h.add_node id a2).adj = h.adj)
    ∧ ((h.add_node id a2).get_nodes = h.get_nodes)
    ∧ ((h.add_node id a2).get_node_attributes id = a2)
    ∧ (∀ j, j ≠ id → (h.add_node id a2).get_node_attributes j
        = h.get_node_attributes j)
    ∧ (∀ j, (h.add_node id a2).get_neighbors j = h.get_neighbors j) := by
  have hge2 : (g.add_node id a2).edges = g.edges := by
    show (if (afind g.edges id).isSome then g.edges
      else g.edges ++ [(id, [])]) = g.edges
    exact if_pos (afind_isSome_iff.mpr hge)
  have hhe2 : (h.add_node id a2).adj = h.adj := by
    show (if (afind h.adj id).isSome then h.adj
      else h.adj ++ [(id, [])]) = h.adj
    exact if_pos (afind_isSome_iff.mpr hhe)
  refine ⟨hge2, ?_, ?_, ?_, ?_, hhe2, ?_, ?_, ?_, ?_⟩
  · show keysOf (aset g.nodes id a2) = keysOf g.nodes
    exact keysOf_aset_mem a2 hgn
  · show (afind (aset g.nodes id a2) id).getD [] = a2
    rw [afind_aset_self]
    rfl
  · intro j hj
    show (afind (aset g.nodes id a2) j).getD [] = (afind g.nodes j).getD []
    rw [afind_aset_ne _ _ hj]
  · intro j
    show (afind (g.add_node id a2).edges j).getD []
      = (afind g.edges j).getD []
    rw [hge2]
  · show keysOf (aset h.nodesL id a2) = keysOf h.nodesL
    exact keysOf_aset_mem a2 hhn
  · show (afind (aset h.nodesL id a2) id).getD [] = a2
    rw [afind_aset_self]
    rfl
  · intro j hj
    show (afind (aset h.nodesL id a2) j).getD [] = (afind h.nodesL j).getD []
    rw [afind_aset_ne _ _ hj]
  · intro j
    show (afind (h.add_node id a2).adj j).getD []
      = (afind h.adj j).getD []
    rw [hhe2]

/-- Claim C10 witness: the frame theorem applied to one-node adapters. -/
theorem add_node_frame_witness :
    ((ManualNetworkAdapter.add_node ManualNetworkAdapter.empty 1
        []).add_node 1 [("tipo", AttrVal.str "Subestacion")]).get_node_attributes 1
      = [("tipo", AttrVal.str "Subestacion")]
    ∧ ∀ j, ((ManualNetworkAdapter.add_node ManualNetworkAdapter.empty 1
        []).add_node 1 [("tipo", AttrVal.str "Subestacion")]).get_neighbors j
      = (ManualNetworkAdapter.add_node ManualNetworkAdapter.empty 1
        []).get_neighbors j :=
  ⟨(add_node_frame (ManualNetworkAdapter.add_node ManualNetworkAdapter.empty 1 [])
      (NxGraph.add_node NxGraph.empty 1 []) 1
      [("tipo", AttrVal.str "Subestacion")] (by decide) (by decide) (by decide)
      (by decide)).2.2.1,
   (add_node_frame (ManualNetworkAdapter.add_node ManualNetworkAdapter.empty 1 [])
      (NxGraph.add_node NxGraph.empty 1 []) 1
      [("tipo", AttrVal.str "Subestacion")] (by decide) (by decide) (by decide)
      (by decide)).2.2.2.2.1⟩

end TreeNodes
